import Mathlib

/-!
# range-v3: `merge` and `views::zip`

A shallow embedding of `include/range/v3/algorithm/merge.hpp` and
`include/range/v3/view/zip.hpp`.

Input iterators are modelled as indices into the list of elements of the range
they traverse; the sentinel of a range is the length of that list.  An output
iterator is a position together with the log of the assignments made through it.
-/

namespace RangeV3

/-! ## Output sink -/

/-- An output iterator `O`: the position it stands at, and the assignments made
through it so far, oldest first, each with the position it was made at. -/
structure Sink (γ : Type) where
  pos : Nat
  log : List (Nat × γ)
deriving DecidableEq, Repr

/-- The statement `*out = x`. -/
def Sink.assign {γ : Type} (out : Sink γ) (x : γ) : Sink γ :=
  { out with log := out.log ++ [(out.pos, x)] }

/-- The statement `++out`. -/
def Sink.next {γ : Type} (out : Sink γ) : Sink γ :=
  { out with pos := out.pos + 1 }

/-- The values assigned through the sink, in the order of assignment. -/
def Sink.written {γ : Type} (out : Sink γ) : List γ :=
  out.log.map Prod.snd

/-- A fresh sink standing at position `start`. -/
def Sink.fresh {γ : Type} (start : Nat) : Sink γ :=
  { pos := start, log := [] }

/-! ## Defaults of `merge` -/

/-- Modelled from the spec: `ordered_less` of `range/v3/utility/functional.hpp`, the
default ordering predicate, the built-in less-than. -/
def ordered_less (a b : Nat) : Bool :=
  decide (a < b)

/-- Modelled from the spec: `ident` of `range/v3/utility/functional.hpp`, the default
projection, the identity function. -/
def ident {α : Type} (x : α) : α :=
  x

/-! ## `copy` -/

/-- Modelled from the spec: `copy(begin, end, out)` of `range/v3/algorithm/copy.hpp`,
which `merge` calls for the remainders.  It writes the elements of `[first, last)`
verbatim and in order to the sink and returns the input position reached, which is
`last`, with the sink position after the last write.  `w` is the conversion applied
by the assignment `*out = *first`. -/
def copy {α γ : Type} (w : α → γ) (xs : List α) (first last : Nat) (out : Sink γ) :
    Nat × Sink γ :=
  (last, ((xs.take last).drop first).foldl (fun o x => (o.assign (w x)).next) out)

/-! ## `merge_fn::operator()` -/

/-- The loop `for(; begin0 != end0 && begin1 != end1; ++out)` of `merge_fn::operator()`.
`A` and `B` are the elements of the two input ranges, `end0 = A.length` and
`end1 = B.length`.  A dereference of a position that holds no element gives `none`;
so does running out of `fuel`.  What is assigned to the sink is tagged with the
input it was read from: `Sum.inl` for `*begin0`, `Sum.inr` for `*begin1`. -/
def mergeLoop {α β κ₀ κ₁ : Type} (pred : κ₁ → κ₀ → Bool) (proj0 : α → κ₀) (proj1 : β → κ₁)
    (A : List α) (B : List β) :
    Nat → Nat → Nat → Sink (α ⊕ β) → Option (Nat × Nat × Sink (α ⊕ β))
  | 0, begin0, begin1, out =>
    if begin0 ≠ A.length ∧ begin1 ≠ B.length then none else some (begin0, begin1, out)
  | fuel + 1, begin0, begin1, out =>
    if begin0 ≠ A.length ∧ begin1 ≠ B.length then
      match A[begin0]?, B[begin1]? with
      | some a, some b =>
        if pred (proj1 b) (proj0 a) then
          mergeLoop pred proj0 proj1 A B fuel begin0 (begin1 + 1) ((out.assign (Sum.inr b)).next)
        else
          mergeLoop pred proj0 proj1 A B fuel (begin0 + 1) begin1 ((out.assign (Sum.inl a)).next)
      | _, _ => none
    else some (begin0, begin1, out)

/-- The `std::tuple<I0, I1, O>` that `merge` returns. -/
structure MergeResult (γ : Type) where
  in0 : Nat
  in1 : Nat
  out : Sink γ
deriving DecidableEq, Repr

/-- The iterator overload of `merge_fn::operator()`, entered with the cursors
`begin0`, `begin1` and the sink `out`: the comparison loop, then the two calls of
`copy`.  The loop gets `A.length + B.length` units of fuel. -/
def mergeFrom {α β κ₀ κ₁ : Type} (pred : κ₁ → κ₀ → Bool) (proj0 : α → κ₀) (proj1 : β → κ₁)
    (A : List α) (B : List β) (begin0 begin1 : Nat) (out : Sink (α ⊕ β)) :
    Option (MergeResult (α ⊕ β)) :=
  match mergeLoop pred proj0 proj1 A B (A.length + B.length) begin0 begin1 out with
  | none => none
  | some (b0, b1, o) =>
    let t0 := copy Sum.inl A b0 A.length o
    let t1 := copy Sum.inr B b1 B.length t0.2
    some { in0 := t0.1, in1 := t1.1, out := t1.2 }

/-- The range overload of `merge_fn::operator()`: the iterator overload entered at
`begin(rng0)`, `begin(rng1)`. -/
def merge {α β κ₀ κ₁ : Type} (pred : κ₁ → κ₀ → Bool) (proj0 : α → κ₀) (proj1 : β → κ₁)
    (A : List α) (B : List β) (out : Sink (α ⊕ β)) : Option (MergeResult (α ⊕ β)) :=
  mergeFrom pred proj0 proj1 A B 0 0 out

/-- The sequence `merge` writes when both inputs and the sink hold elements of one
type: the values in the order of assignment, the tag of origin forgotten.  `none`
when `merge` does not complete. -/
def mergeOutput {α κ₀ κ₁ : Type} (pred : κ₁ → κ₀ → Bool) (proj0 : α → κ₀) (proj1 : α → κ₁)
    (A B : List α) : Option (List α) :=
  (merge pred proj0 proj1 A B (Sink.fresh 0)).map
    (fun r => r.out.written.map (Sum.elim id id))

/-- The two-list recursion that the cursor loop and the two copies compute: the
head of `B` is taken when `pred` puts its key before the key of the head of `A`,
the head of `A` otherwise, and what is left of one list when the other is empty. -/
def mergeLists {α β κ₀ κ₁ : Type} (pred : κ₁ → κ₀ → Bool) (proj0 : α → κ₀) (proj1 : β → κ₁) :
    List α → List β → List (α ⊕ β)
  | [], B => B.map Sum.inr
  | a :: A, [] => (a :: A).map Sum.inl
  | a :: A, b :: B =>
    if pred (proj1 b) (proj0 a) then Sum.inr b :: mergeLists pred proj0 proj1 (a :: A) B
    else Sum.inl a :: mergeLists pred proj0 proj1 A (b :: B)

/-- The key of a written element: the projection of the input it was read from. -/
def keyOf {α β κ : Type} (proj0 : α → κ) (proj1 : β → κ) : α ⊕ β → κ
  | Sum.inl a => proj0 a
  | Sum.inr b => proj1 b

/-- A strict weak order given as a Boolean predicate: irreflexive, transitive, and
with a transitive incomparability relation. -/
structure StrictWeakOrder {κ : Type} (less : κ → κ → Bool) : Prop where
  irrefl : ∀ a, less a a = false
  trans : ∀ a b c, less a b = true → less b c = true → less a c = true
  incomp_trans : ∀ a b c, less a b = false → less b a = false →
    less b c = false → less c b = false → less a c = false ∧ less c a = false

/-- A sequence is non-descending under `less` through the projection `proj`: no
element has a key that `less` puts before the key of its predecessor. -/
def NonDescending {α κ : Type} (less : κ → κ → Bool) (proj : α → κ) (xs : List α) : Prop :=
  List.Chain' (fun x y => less (proj y) (proj x) = false) xs

/-- The sink after the values `xs` have been assigned through it one after the
other, each assignment followed by an increment. -/
def Sink.writeAll {γ : Type} (out : Sink γ) (xs : List γ) : Sink γ :=
  xs.foldl (fun o x => (o.assign x).next) out

/-! ## Sequence and cursor protocol -/

/-- Modelled from the spec: a cursor over a sequence, the traversal position `pos`
in the elements `seq`; the terminator of the sequence is the position `seq.length`,
and a cursor never stands beyond it. -/
structure Cursor (α : Type) where
  seq : List α
  pos : Nat
  valid : pos ≤ seq.length

/-- Modelled from the spec: `equals(cursor, terminator)`, the only test of
exhaustion. -/
def Cursor.equals {α : Type} (c : Cursor α) : Prop :=
  c.pos = c.seq.length

instance Cursor.decidableEquals {α : Type} (c : Cursor α) : Decidable c.equals :=
  inferInstanceAs (Decidable (c.pos = c.seq.length))

/-- Modelled from the spec: `current(cursor)`, the element at the position of a cursor
that is not at its terminator. -/
def Cursor.current {α : Type} (c : Cursor α) (h : ¬ c.equals) : α :=
  c.seq.get ⟨c.pos, Nat.lt_of_le_of_ne c.valid h⟩

/-- Modelled from the spec: `advance(cursor)`, one step forward; a cursor at its
terminator cannot be advanced. -/
def Cursor.advance {α : Type} (c : Cursor α) (h : ¬ c.equals) : Cursor α :=
  ⟨c.seq, c.pos + 1, Nat.lt_of_le_of_ne c.valid h⟩

/-- Modelled from the spec: the cursor at the start of a sequence. -/
def Cursor.start {α : Type} (xs : List α) : Cursor α :=
  ⟨xs, 0, Nat.zero_le _⟩

/-- A cursor that holds an element: an `indirectly_readable` iterator in the state
in which it may be dereferenced. -/
def ReadableCursor (α : Type) : Type :=
  { c : Cursor α // ¬ c.equals }

/-- The expression `*it` on a cursor that holds an element. -/
def ReadableCursor.deref {α : Type} (c : ReadableCursor α) : α :=
  c.1.current c.2

/-! ## `detail::indirect_zip_fn_` -/

/-- Modelled from the spec: the outcome of `RANGES_EXPECT(false)`, a failed
precondition, on which the program aborts. -/
inductive Abort where
  | expect_failed
deriving DecidableEq, Repr

/-- The composite element of `n` zipped sequences, with slot `k` of type `V k`: a
`common_tuple` when `n ≠ 2`, a `common_pair` when `n = 2`. -/
inductive Composite {n : Nat} (V : Fin n → Type) where
  | tuple (hn : n ≠ 2) (slots : ∀ k, V k) : Composite V
  | pair (hn : n = 2) (first : V ⟨0, by omega⟩) (second : V ⟨1, by omega⟩) : Composite V

/-- Slot `k` of a composite element. -/
def Composite.slot {n : Nat} {V : Fin n → Type} : Composite V → (k : Fin n) → V k
  | .tuple _ slots, k => slots k
  | .pair _ a _, ⟨0, _⟩ => a
  | .pair _ _ b, ⟨1, _⟩ => b
  | .pair hn _ _, ⟨i + 2, h⟩ => absurd h (by omega)

/-- The overload "tuple value" of `indirect_zip_fn_::operator()`, taking `copy_tag`:
its body is `RANGES_EXPECT(false)`. -/
def indirect_zip_fn_.tuple_value {n : Nat} {It Val : Fin n → Type} (_hn : n ≠ 2)
    (_its : ∀ k, It k) : Except Abort (∀ k, Val k) :=
  Except.error Abort.expect_failed

/-- The overload "tuple reference" of `indirect_zip_fn_::operator()`:
`common_tuple<iter_reference_t<Its>...>{*its...}`. -/
def indirect_zip_fn_.tuple_reference {n : Nat} {It Ref : Fin n → Type}
    (deref : ∀ k, It k → Ref k) (_hn : n ≠ 2) (its : ∀ k, It k) : ∀ k, Ref k :=
  fun k => deref k (its k)

/-- The overload "tuple rvalue reference" of `indirect_zip_fn_::operator()`, taking
`move_tag`: `common_tuple<iter_rvalue_reference_t<Its>...>{iter_move(its)...}`. -/
def indirect_zip_fn_.tuple_rvalue_reference {n : Nat} {It RRef : Fin n → Type}
    (iter_move : ∀ k, It k → RRef k) (_hn : n ≠ 2) (its : ∀ k, It k) : ∀ k, RRef k :=
  fun k => iter_move k (its k)

/-- The overload "pair value" of `indirect_zip_fn_::operator()`, taking `copy_tag`:
its body is `RANGES_EXPECT(false)`. -/
def indirect_zip_fn_.pair_value {It1 It2 Val1 Val2 : Type} (_it1 : It1) (_it2 : It2) :
    Except Abort (Val1 × Val2) :=
  Except.error Abort.expect_failed

/-- The overload "pair reference" of `indirect_zip_fn_::operator()`:
`{*it1, *it2}`. -/
def indirect_zip_fn_.pair_reference {It1 It2 Ref1 Ref2 : Type} (deref1 : It1 → Ref1)
    (deref2 : It2 → Ref2) (it1 : It1) (it2 : It2) : Ref1 × Ref2 :=
  (deref1 it1, deref2 it2)

/-- The overload "pair rvalue reference" of `indirect_zip_fn_::operator()`, taking
`move_tag`: `{iter_move(it1), iter_move(it2)}`. -/
def indirect_zip_fn_.pair_rvalue_reference {It1 It2 RRef1 RRef2 : Type}
    (iter_move1 : It1 → RRef1) (iter_move2 : It2 → RRef2) (it1 : It1) (it2 : It2) :
    RRef1 × RRef2 :=
  (iter_move1 it1, iter_move2 it2)

/-- The call `indirect_zip_fn_{}(its...)` on `n` iterators, the reference mode:
overload resolution takes "pair reference" for two iterators and "tuple reference"
for any other number. -/
def indirect_zip_fn_.reference {n : Nat} {It Ref : Fin n → Type}
    (deref : ∀ k, It k → Ref k) (its : ∀ k, It k) : Composite Ref :=
  if hn : n = 2 then
    let p := indirect_zip_fn_.pair_reference (deref ⟨0, by omega⟩) (deref ⟨1, by omega⟩)
      (its ⟨0, by omega⟩) (its ⟨1, by omega⟩)
    Composite.pair hn p.1 p.2
  else Composite.tuple hn (indirect_zip_fn_.tuple_reference deref hn its)

/-! ## `zip_view` and `views::zip` -/

/-- Modelled from the spec: the state of `iter_zip_with_view`
(`range/v3/view/zip_with.hpp`), one cursor per input sequence. -/
abbrev Bundle {n : Nat} (T : Fin n → Type) : Type :=
  ∀ k, Cursor (T k)

/-- Modelled from the spec: `start()` of `iter_zip_with_view`, the bundle that stands
at the start of every input. -/
def iter_zip_with_view.start {n : Nat} {T : Fin n → Type} (rngs : ∀ k, List (T k)) :
    Bundle T :=
  fun k => Cursor.start (rngs k)

/-- Modelled from the spec: `at_end(bundle)` of `iter_zip_with_view`, true iff some
input's cursor equals its own terminator. -/
def iter_zip_with_view.at_end {n : Nat} {T : Fin n → Type} (b : Bundle T) : Prop :=
  ∃ k, (b k).equals

instance iter_zip_with_view.decidableAtEnd {n : Nat} {T : Fin n → Type} (b : Bundle T) :
    Decidable (iter_zip_with_view.at_end b) :=
  inferInstanceAs (Decidable (∃ k, (b k).equals))

/-- Modelled from the spec: `current(bundle)` of `iter_zip_with_view`, the accessor
`fun_` invoked over all the cursors; it fails when the bundle is at end. -/
def iter_zip_with_view.current {n : Nat} {T : Fin n → Type} {R : Type}
    (fun_ : (∀ k, ReadableCursor (T k)) → R) (b : Bundle T) : Option R :=
  if h : iter_zip_with_view.at_end b then none
  else some (fun_ (fun k => ⟨b k, fun hk => h ⟨k, hk⟩⟩))

/-- Modelled from the spec: `advance(bundle)` of `iter_zip_with_view`, all the
cursors advanced by one step; it fails when the bundle is at end. -/
def iter_zip_with_view.advance {n : Nat} {T : Fin n → Type} (b : Bundle T) :
    Option (Bundle T) :=
  if h : iter_zip_with_view.at_end b then none
  else some (fun k => (b k).advance (fun hk => h ⟨k, hk⟩))

/-- Modelled from the spec: a traversal of `iter_zip_with_view` from the bundle `b`,
which collects `current` and advances until the bundle is at end.  `none` when
`fuel` steps do not reach the end. -/
def iter_zip_with_view.traverse {n : Nat} {T : Fin n → Type} {R : Type}
    (fun_ : (∀ k, ReadableCursor (T k)) → R) : Nat → Bundle T → Option (List R)
  | 0, b => if iter_zip_with_view.at_end b then some [] else none
  | fuel + 1, b =>
    if iter_zip_with_view.at_end b then some []
    else
      match iter_zip_with_view.current fun_ b, iter_zip_with_view.advance b with
      | some c, some b' =>
        (iter_zip_with_view.traverse fun_ fuel b').map (fun rest => c :: rest)
      | _, _ => none

/-- The accessor `zip_view` hands to `iter_zip_with_view`: `indirect_zip_fn_`, called
in reference mode on the cursors of the bundle. -/
def zip_view.accessor {n : Nat} {T : Fin n → Type} (its : ∀ k, ReadableCursor (T k)) :
    Composite T :=
  indirect_zip_fn_.reference (fun _ c => c.deref) its

/-- The elements of `zip_view<Rngs...>` over the inputs `rngs`, for which
`sizeof...(Rngs) != 0` is asserted: the traversal of
`iter_zip_with_view<indirect_zip_fn_, Rngs...>` from its start, with the length of
the first input as fuel. -/
def zip_view.elements {n : Nat} {T : Fin n → Type} (rngs : ∀ k, List (T k)) (hn : n ≠ 0) :
    Option (List (Composite T)) :=
  iter_zip_with_view.traverse zip_view.accessor (rngs ⟨0, Nat.pos_of_ne_zero hn⟩).length
    (iter_zip_with_view.start rngs)

/-- The elements of the view `views::zip_fn::operator()` returns: those of
`empty_view<std::tuple<>>`, none at all, for no argument, and those of
`zip_view<all_t<Rngs>...>` otherwise. -/
def zip {n : Nat} {T : Fin n → Type} (rngs : ∀ k, List (T k)) : Option (List (Composite T)) :=
  if hn : n = 0 then some [] else zip_view.elements rngs hn

/-- The bundle over `rngs` in which every cursor stands at position `i`. -/
def bundleAt {n : Nat} {T : Fin n → Type} (rngs : ∀ k, List (T k)) (i : Nat)
    (h : ∀ k, i ≤ (rngs k).length) : Bundle T :=
  fun k => ⟨rngs k, i, h k⟩

/-! ## The other modes of `detail::indirect_zip_fn_` -/

/-- The call `indirect_zip_fn_{}(copy_tag{}, its...)` on `n` iterators, the value
mode: overload resolution takes "pair value" for two iterators and "tuple value" for
any other number. -/
def indirect_zip_fn_.value {n : Nat} {It Val : Fin n → Type} (its : ∀ k, It k) :
    Except Abort (Composite Val) :=
  if hn : n = 2 then
    Except.map (fun p => Composite.pair hn p.1 p.2)
      (indirect_zip_fn_.pair_value (its ⟨0, by omega⟩) (its ⟨1, by omega⟩) :
        Except Abort (Val ⟨0, by omega⟩ × Val ⟨1, by omega⟩))
  else
    Except.map (Composite.tuple hn)
      (indirect_zip_fn_.tuple_value hn its : Except Abort (∀ k, Val k))

/-- The call `indirect_zip_fn_{}(move_tag{}, its...)` on `n` iterators, the move
mode: overload resolution takes "pair rvalue reference" for two iterators and "tuple
rvalue reference" for any other number. -/
def indirect_zip_fn_.rvalue_reference {n : Nat} {It RRef : Fin n → Type}
    (iter_move : ∀ k, It k → RRef k) (its : ∀ k, It k) : Composite RRef :=
  if hn : n = 2 then
    let p := indirect_zip_fn_.pair_rvalue_reference (iter_move ⟨0, by omega⟩)
      (iter_move ⟨1, by omega⟩) (its ⟨0, by omega⟩) (its ⟨1, by omega⟩)
    Composite.pair hn p.1 p.2
  else Composite.tuple hn (indirect_zip_fn_.tuple_rvalue_reference iter_move hn its)

/-- The return expression `{*its...}` of the overload "tuple reference", the general
`N`-slot definition, on any number of iterators; the overload itself is constrained
to `sizeof...(Its) != 2`. -/
def indirect_zip_fn_.tuple_reference_slots {n : Nat} {It Ref : Fin n → Type}
    (deref : ∀ k, It k → Ref k) (its : ∀ k, It k) : ∀ k, Ref k :=
  fun k => deref k (its k)

/-- The return expression `{iter_move(its)...}` of the overload "tuple rvalue
reference", the general `N`-slot definition, on any number of iterators; the overload
itself is constrained to `sizeof...(Its) != 2`. -/
def indirect_zip_fn_.tuple_rvalue_reference_slots {n : Nat} {It RRef : Fin n → Type}
    (iter_move : ∀ k, It k → RRef k) (its : ∀ k, It k) : ∀ k, RRef k :=
  fun k => iter_move k (its k)

/-! ## `enable_borrowed_range<zip_view<Rng...>>` -/

/-- Modelled from the spec: `and_v` of `meta/meta.hpp`, the logical AND of a pack of
Boolean constants. -/
def and_v : List Bool → Bool
  | [] => true
  | b :: bs => b && and_v bs

/-- The variable template `enable_borrowed_range<zip_view<Rng...>>`, given the values
`enable_borrowed_range<Rng>` of the inputs: `and_v<enable_borrowed_range<Rng>...>`. -/
def enable_borrowed_range_zip_view {n : Nat} (enable_borrowed_range : Fin n → Bool) : Bool :=
  and_v (List.ofFn enable_borrowed_range)

/-! ## Instrumented runs of `merge_fn::operator()` -/

/-- The loop of `merge_fn::operator()` as `mergeLoop`, with a count of the iterations
made: the count comes first in the result. -/
def mergeLoopSteps {α β κ₀ κ₁ : Type} (pred : κ₁ → κ₀ → Bool) (proj0 : α → κ₀)
    (proj1 : β → κ₁) (A : List α) (B : List β) :
    Nat → Nat → Nat → Nat → Sink (α ⊕ β) → Option (Nat × Nat × Nat × Sink (α ⊕ β))
  | 0, steps, begin0, begin1, out =>
    if begin0 ≠ A.length ∧ begin1 ≠ B.length then none
    else some (steps, begin0, begin1, out)
  | fuel + 1, steps, begin0, begin1, out =>
    if begin0 ≠ A.length ∧ begin1 ≠ B.length then
      match A[begin0]?, B[begin1]? with
      | some a, some b =>
        if pred (proj1 b) (proj0 a) then
          mergeLoopSteps pred proj0 proj1 A B fuel (steps + 1) begin0 (begin1 + 1)
            ((out.assign (Sum.inr b)).next)
        else
          mergeLoopSteps pred proj0 proj1 A B fuel (steps + 1) (begin0 + 1) begin1
            ((out.assign (Sum.inl a)).next)
      | _, _ => none
    else some (steps, begin0, begin1, out)

/-- A dereference of an input cursor: of `begin1` when `second` holds and of `begin0`
otherwise, at the position `pos`, made for the assignment to the sink when `forWrite`
holds and for the comparison otherwise. -/
structure Deref where
  second : Bool
  pos : Nat
  forWrite : Bool
deriving DecidableEq, Repr

/-- The loop of `merge_fn::operator()` as `mergeLoop`, with the sink left out and the
dereferences recorded in the order of the source text: `*begin1` and `*begin0` for
`pred(proj1(*begin1), proj0(*begin0))`, then `*begin1` or `*begin0` for the
assignment.  A dereference of a position that holds no element gives `none`. -/
def mergeLoopTrace {α β κ₀ κ₁ : Type} (pred : κ₁ → κ₀ → Bool) (proj0 : α → κ₀)
    (proj1 : β → κ₁) (A : List α) (B : List β) :
    Nat → Nat → Nat → List Deref → Option (Nat × Nat × List Deref)
  | 0, begin0, begin1, tr =>
    if begin0 ≠ A.length ∧ begin1 ≠ B.length then none else some (begin0, begin1, tr)
  | fuel + 1, begin0, begin1, tr =>
    if begin0 ≠ A.length ∧ begin1 ≠ B.length then
      match A[begin0]?, B[begin1]? with
      | some a, some b =>
        if pred (proj1 b) (proj0 a) then
          mergeLoopTrace pred proj0 proj1 A B fuel begin0 (begin1 + 1)
            (tr ++ [⟨true, begin1, false⟩, ⟨false, begin0, false⟩, ⟨true, begin1, true⟩])
        else
          mergeLoopTrace pred proj0 proj1 A B fuel (begin0 + 1) begin1
            (tr ++ [⟨true, begin1, false⟩, ⟨false, begin0, false⟩, ⟨false, begin0, true⟩])
      | _, _ => none
    else some (begin0, begin1, tr)

/-- Modelled from the spec: the dereferences `copy(first, last, out)` makes, one of
each position of `[first, last)` in order, each for the assignment to the sink. -/
def copyTrace (second : Bool) (first last : Nat) : List Deref :=
  (List.range' first (last - first)).map (fun i => ⟨second, i, true⟩)

/-- The dereferences of the input cursors that `merge_fn::operator()` makes on the
ranges `A` and `B`, in order: those of the loop, then those of the two calls of
`copy`. -/
def mergeTrace {α β κ₀ κ₁ : Type} (pred : κ₁ → κ₀ → Bool) (proj0 : α → κ₀)
    (proj1 : β → κ₁) (A : List α) (B : List β) : Option (List Deref) :=
  match mergeLoopTrace pred proj0 proj1 A B (A.length + B.length) 0 0 [] with
  | none => none
  | some (b0, b1, tr) =>
    some (tr ++ copyTrace false b0 A.length ++ copyTrace true b1 B.length)

/-! ## Stable sorting -/

/-- Equivalence of two keys under `less`: neither is put before the other. -/
def equivalent {κ : Type} (less : κ → κ → Bool) (x y : κ) : Bool :=
  !less x y && !less y x

/-- The stable sort of a list under `less` on projected keys, by insertion: each
element is put before the first element of the sorted rest whose key `less` does not
put before its own, so that elements with equivalent keys keep their order. -/
def stableSort {α κ : Type} (less : κ → κ → Bool) (proj : α → κ) (xs : List α) : List α :=
  List.insertionSort (fun x y => less (proj y) (proj x) = false) xs

/-- The values `mergeLists` yields when both inputs hold elements of one type under
one projection, the tag of origin forgotten. -/
def mergeValues {α κ : Type} (less : κ → κ → Bool) (proj : α → κ) (A B : List α) : List α :=
  (mergeLists less proj proj A B).map (Sum.elim id id)

/-! ## Lemmas on the sink and on `copy` -/

theorem Sink.writeAll_nil {γ : Type} (out : Sink γ) : out.writeAll [] = out := rfl

theorem Sink.writeAll_cons {γ : Type} (out : Sink γ) (x : γ) (xs : List γ) :
    out.writeAll (x :: xs) = ((out.assign x).next).writeAll xs := rfl

theorem Sink.writeAll_append {γ : Type} (out : Sink γ) (xs ys : List γ) :
    out.writeAll (xs ++ ys) = (out.writeAll xs).writeAll ys := by
  simp [Sink.writeAll, List.foldl_append]

theorem Sink.writeAll_eq {γ : Type} (out : Sink γ) (xs : List γ) :
    out.writeAll xs = ⟨out.pos + xs.length, out.log ++ xs.enumFrom out.pos⟩ := by
  induction xs generalizing out with
  | nil => simp [Sink.writeAll]
  | cons x xs ih =>
    rw [Sink.writeAll_cons, ih]
    simp [Sink.assign, Sink.next, List.enumFrom_cons]
    omega

theorem copy_eq {α γ : Type} (w : α → γ) (xs : List α) (first : Nat) (out : Sink γ) :
    copy w xs first xs.length out = (xs.length, out.writeAll ((xs.drop first).map w)) := by
  simp only [copy, Sink.writeAll, List.take_length, List.foldl_map]

/-! ## The cursor loop computes the two-list recursion -/

theorem mergeLists_nil_right {α β κ₀ κ₁ : Type} (pred : κ₁ → κ₀ → Bool) (proj0 : α → κ₀)
    (proj1 : β → κ₁) (A : List α) :
    mergeLists pred proj0 proj1 A [] = A.map Sum.inl := by
  cases A <;> simp [mergeLists]

theorem mergeLoop_spec {α β κ₀ κ₁ : Type} (pred : κ₁ → κ₀ → Bool) (proj0 : α → κ₀)
    (proj1 : β → κ₁) (A : List α) (B : List β) (fuel : Nat) :
    ∀ (i j : Nat) (out : Sink (α ⊕ β)), i ≤ A.length → j ≤ B.length →
      (A.length - i) + (B.length - j) ≤ fuel →
      ∃ i' j' o', mergeLoop pred proj0 proj1 A B fuel i j out = some (i', j', o') ∧
        i' ≤ A.length ∧ j' ≤ B.length ∧ (i' = A.length ∨ j' = B.length) ∧
        (o'.writeAll ((A.drop i').map Sum.inl)).writeAll ((B.drop j').map Sum.inr)
          = out.writeAll (mergeLists pred proj0 proj1 (A.drop i) (B.drop j)) := by
  induction fuel with
  | zero =>
    intro i j out hi hj hf
    have hi' : i = A.length := by omega
    have hj' : j = B.length := by omega
    refine ⟨i, j, out, ?_, hi, hj, Or.inl hi', ?_⟩
    · simp [mergeLoop, hi']
    · subst hi' hj'
      simp [mergeLists, Sink.writeAll_nil]
  | succ fuel ih =>
    intro i j out hi hj hf
    by_cases hc : i ≠ A.length ∧ j ≠ B.length
    · obtain ⟨hia, hjb⟩ := hc
      have hi' : i < A.length := by omega
      have hj' : j < B.length := by omega
      have hA : A.drop i = A[i] :: A.drop (i + 1) := List.drop_eq_getElem_cons hi'
      have hB : B.drop j = B[j] :: B.drop (j + 1) := List.drop_eq_getElem_cons hj'
      by_cases hp : pred (proj1 B[j]) (proj0 A[i]) = true
      · obtain ⟨i', j', o', h1, h2, h3, h4, h5⟩ :=
          ih i (j + 1) ((out.assign (Sum.inr B[j])).next) hi (by omega) (by omega)
        refine ⟨i', j', o', ?_, h2, h3, h4, ?_⟩
        · simp [mergeLoop, hia, hjb, List.getElem?_eq_getElem hi',
            List.getElem?_eq_getElem hj', hp, h1]
        · rw [h5, hB]
          conv_rhs => rw [hA]
          simp only [mergeLists, hp, if_true, Sink.writeAll_cons]
          rw [← hA]
      · obtain ⟨i', j', o', h1, h2, h3, h4, h5⟩ :=
          ih (i + 1) j ((out.assign (Sum.inl A[i])).next) (by omega) hj (by omega)
        refine ⟨i', j', o', ?_, h2, h3, h4, ?_⟩
        · simp [mergeLoop, hia, hjb, List.getElem?_eq_getElem hi',
            List.getElem?_eq_getElem hj', hp, h1]
        · rw [h5, hA]
          conv_rhs => rw [hB]
          have hp' : pred (proj1 B[j]) (proj0 A[i]) = false := by simpa using hp
          simp only [mergeLists, hp', Bool.false_eq_true, if_false, Sink.writeAll_cons]
          rw [← hB]
    · refine ⟨i, j, out, ?_, hi, hj, by omega, ?_⟩
      · simp only [mergeLoop, hc, if_false]
      · have hc' : i = A.length ∨ j = B.length := by omega
        rcases hc' with h | h
        · subst h
          simp [mergeLists, Sink.writeAll_nil]
        · subst h
          simp [mergeLists_nil_right, Sink.writeAll_nil]

theorem mergeFrom_eq {α β κ₀ κ₁ : Type} (pred : κ₁ → κ₀ → Bool) (proj0 : α → κ₀)
    (proj1 : β → κ₁) (A : List α) (B : List β) (i j : Nat) (out : Sink (α ⊕ β))
    (hi : i ≤ A.length) (hj : j ≤ B.length) :
    mergeFrom pred proj0 proj1 A B i j out
      = some ⟨A.length, B.length,
          out.writeAll (mergeLists pred proj0 proj1 (A.drop i) (B.drop j))⟩ := by
  obtain ⟨i', j', o', h1, _, _, _, h5⟩ :=
    mergeLoop_spec pred proj0 proj1 A B (A.length + B.length) i j out hi hj (by omega)
  simp only [mergeFrom, h1, copy_eq, h5]

theorem merge_eq {α β κ₀ κ₁ : Type} (pred : κ₁ → κ₀ → Bool) (proj0 : α → κ₀)
    (proj1 : β → κ₁) (A : List α) (B : List β) (out : Sink (α ⊕ β)) :
    merge pred proj0 proj1 A B out
      = some ⟨A.length, B.length, out.writeAll (mergeLists pred proj0 proj1 A B)⟩ := by
  simpa [merge] using mergeFrom_eq pred proj0 proj1 A B 0 0 out (Nat.zero_le _) (Nat.zero_le _)

theorem merge_fresh {α β κ₀ κ₁ : Type} (pred : κ₁ → κ₀ → Bool) (proj0 : α → κ₀)
    (proj1 : β → κ₁) (A : List α) (B : List β) (start : Nat) :
    merge pred proj0 proj1 A B (Sink.fresh start)
      = some ⟨A.length, B.length,
          ⟨start + (mergeLists pred proj0 proj1 A B).length,
            (mergeLists pred proj0 proj1 A B).enumFrom start⟩⟩ := by
  rw [merge_eq, Sink.writeAll_eq]
  simp [Sink.fresh]

/-! ## Properties of the two-list recursion -/

theorem mergeLists_cons_cons {α β κ₀ κ₁ : Type} (pred : κ₁ → κ₀ → Bool) (proj0 : α → κ₀)
    (proj1 : β → κ₁) (a : α) (A : List α) (b : β) (B : List β) :
    mergeLists pred proj0 proj1 (a :: A) (b :: B)
      = if pred (proj1 b) (proj0 a) then Sum.inr b :: mergeLists pred proj0 proj1 (a :: A) B
        else Sum.inl a :: mergeLists pred proj0 proj1 A (b :: B) := by
  simp [mergeLists]

theorem mergeLists_length {α β κ₀ κ₁ : Type} (pred : κ₁ → κ₀ → Bool) (proj0 : α → κ₀)
    (proj1 : β → κ₁) (A : List α) (B : List β) :
    (mergeLists pred proj0 proj1 A B).length = A.length + B.length := by
  induction A generalizing B with
  | nil => simp [mergeLists]
  | cons a A ihA =>
    induction B with
    | nil => simp [mergeLists]
    | cons b B ihB =>
      rw [mergeLists_cons_cons]
      split
      · simp only [List.length_cons, ihB]; omega
      · simp only [List.length_cons, ihA]; omega

theorem filterMap_getLeft_inl {α β : Type} (A : List α) :
    (A.map (Sum.inl : α → α ⊕ β)).filterMap Sum.getLeft? = A := by
  induction A with
  | nil => rfl
  | cons a A ih => simp [ih]

theorem filterMap_getLeft_inr {α β : Type} (B : List β) :
    (B.map (Sum.inr : β → α ⊕ β)).filterMap Sum.getLeft? = [] := by
  induction B with
  | nil => rfl
  | cons b B ih => simp [ih]

theorem filterMap_getRight_inr {α β : Type} (B : List β) :
    (B.map (Sum.inr : β → α ⊕ β)).filterMap Sum.getRight? = B := by
  induction B with
  | nil => rfl
  | cons b B ih => simp [ih]

theorem filterMap_getRight_inl {α β : Type} (A : List α) :
    (A.map (Sum.inl : α → α ⊕ β)).filterMap Sum.getRight? = [] := by
  induction A with
  | nil => rfl
  | cons a A ih => simp [ih]

theorem mergeLists_lefts {α β κ₀ κ₁ : Type} (pred : κ₁ → κ₀ → Bool) (proj0 : α → κ₀)
    (proj1 : β → κ₁) (A : List α) (B : List β) :
    (mergeLists pred proj0 proj1 A B).filterMap Sum.getLeft? = A := by
  induction A generalizing B with
  | nil => simp only [mergeLists, filterMap_getLeft_inr]
  | cons a A ihA =>
    induction B with
    | nil => rw [mergeLists_nil_right, filterMap_getLeft_inl]
    | cons b B ihB =>
      rw [mergeLists_cons_cons]
      split
      · simpa using ihB
      · simpa using ihA (b :: B)

theorem mergeLists_rights {α β κ₀ κ₁ : Type} (pred : κ₁ → κ₀ → Bool) (proj0 : α → κ₀)
    (proj1 : β → κ₁) (A : List α) (B : List β) :
    (mergeLists pred proj0 proj1 A B).filterMap Sum.getRight? = B := by
  induction A generalizing B with
  | nil => simp only [mergeLists, filterMap_getRight_inr]
  | cons a A ihA =>
    induction B with
    | nil => rw [mergeLists_nil_right, filterMap_getRight_inl]
    | cons b B ihB =>
      rw [mergeLists_cons_cons]
      split
      · simpa using ihB
      · simpa using ihA (b :: B)

theorem mergeLists_perm {α β κ₀ κ₁ : Type} (pred : κ₁ → κ₀ → Bool) (proj0 : α → κ₀)
    (proj1 : β → κ₁) (A : List α) (B : List β) :
    (mergeLists pred proj0 proj1 A B).Perm (A.map Sum.inl ++ B.map Sum.inr) := by
  induction A generalizing B with
  | nil => simp [mergeLists]
  | cons a A ihA =>
    induction B with
    | nil => simp [mergeLists]
    | cons b B ihB =>
      rw [mergeLists_cons_cons]
      split
      · refine (List.Perm.cons _ ihB).trans ?_
        simpa using (@List.perm_middle _ (Sum.inr b)
          (Sum.inl a :: A.map Sum.inl) (B.map Sum.inr)).symm
      · simpa using List.Perm.cons (Sum.inl a) (ihA (b :: B))

theorem mergeLists_mem_inl {α β κ₀ κ₁ : Type} (pred : κ₁ → κ₀ → Bool) (proj0 : α → κ₀)
    (proj1 : β → κ₁) (A : List α) (B : List β) (a : α) :
    Sum.inl a ∈ mergeLists pred proj0 proj1 A B ↔ a ∈ A := by
  rw [(mergeLists_perm pred proj0 proj1 A B).mem_iff]
  simp

theorem mergeLists_mem_inr {α β κ₀ κ₁ : Type} (pred : κ₁ → κ₀ → Bool) (proj0 : α → κ₀)
    (proj1 : β → κ₁) (A : List α) (B : List β) (b : β) :
    Sum.inr b ∈ mergeLists pred proj0 proj1 A B ↔ b ∈ B := by
  rw [(mergeLists_perm pred proj0 proj1 A B).mem_iff]
  simp

/-! ## Strict weak orders -/

theorem StrictWeakOrder.asymm {κ : Type} {less : κ → κ → Bool} (h : StrictWeakOrder less)
    {a b : κ} (hab : less a b = true) : less b a = false := by
  cases hba : less b a with
  | false => rfl
  | true =>
    have := h.trans a b a hab hba
    rw [h.irrefl a] at this
    exact absurd this (by decide)

theorem StrictWeakOrder.neg_trans {κ : Type} {less : κ → κ → Bool} (h : StrictWeakOrder less)
    {x y z : κ} (hzx : less z x = true) : less z y = true ∨ less y x = true := by
  cases hzy : less z y with
  | true => exact Or.inl rfl
  | false =>
    cases hyx : less y x with
    | true => exact Or.inr rfl
    | false =>
      exfalso
      have hyz : less y z = false := by
        cases hyz : less y z with
        | false => rfl
        | true => rw [h.trans y z x hyz hzx] at hyx; exact absurd hyx (by decide)
      have hxy : less x y = false := by
        cases hxy : less x y with
        | false => rfl
        | true => rw [h.trans z x y hzx hxy] at hzy; exact absurd hzy (by decide)
      have := (h.incomp_trans z y x hzy hyz hyx hxy).1
      rw [hzx] at this
      exact absurd this (by decide)

theorem StrictWeakOrder.not_less_trans {κ : Type} {less : κ → κ → Bool}
    (h : StrictWeakOrder less) {x y z : κ} (hyx : less y x = false) (hzy : less z y = false) :
    less z x = false := by
  cases hzx : less z x with
  | false => rfl
  | true =>
    rcases h.neg_trans (y := y) hzx with h1 | h1
    · rw [h1] at hzy; exact absurd hzy (by decide)
    · rw [h1] at hyx; exact absurd hyx (by decide)

theorem NonDescending.pairwise {α κ : Type} {less : κ → κ → Bool} (h : StrictWeakOrder less)
    {proj : α → κ} {xs : List α} (hxs : NonDescending less proj xs) :
    xs.Pairwise (fun x y => less (proj y) (proj x) = false) := by
  haveI : IsTrans α (fun x y => less (proj y) (proj x) = false) :=
    ⟨fun _ _ _ hab hbc => h.not_less_trans hab hbc⟩
  exact List.chain'_iff_pairwise.mp hxs

theorem strictWeakOrder_ordered_less : StrictWeakOrder ordered_less where
  irrefl := by intro a; simp [ordered_less]
  trans := by intro a b c; simp only [ordered_less, decide_eq_true_eq]; omega
  incomp_trans := by
    intro a b c
    simp only [ordered_less, decide_eq_false_iff_not]
    omega

/-! ## Ordering and stability of the two-list recursion -/

theorem mergeLists_head {α β κ₀ κ₁ : Type} (pred : κ₁ → κ₀ → Bool) (proj0 : α → κ₀)
    (proj1 : β → κ₁) (A : List α) (B : List β) (y : α ⊕ β)
    (hy : y ∈ (mergeLists pred proj0 proj1 A B).head?) :
    (∃ a, a ∈ A.head? ∧ y = Sum.inl a) ∨ (∃ b, b ∈ B.head? ∧ y = Sum.inr b) := by
  cases A with
  | nil =>
    cases B with
    | nil => simp [mergeLists] at hy
    | cons b B => right; simp [mergeLists] at hy; exact ⟨b, by simp, hy.symm⟩
  | cons a A =>
    cases B with
    | nil => left; simp [mergeLists] at hy; exact ⟨a, by simp, hy.symm⟩
    | cons b B =>
      rw [mergeLists_cons_cons] at hy
      split at hy
      · right; simp at hy; exact ⟨b, by simp, hy.symm⟩
      · left; simp at hy; exact ⟨a, by simp, hy.symm⟩

theorem mergeLists_nonDescending {α β κ : Type} (less : κ → κ → Bool)
    (hless : StrictWeakOrder less) (proj0 : α → κ) (proj1 : β → κ) (A : List α) (B : List β)
    (hA : NonDescending less proj0 A) (hB : NonDescending less proj1 B) :
    NonDescending less (keyOf proj0 proj1) (mergeLists less proj0 proj1 A B) := by
  unfold NonDescending at *
  induction A generalizing B with
  | nil =>
    simp only [mergeLists]
    rw [List.chain'_map]
    exact hB
  | cons a A ihA =>
    induction B with
    | nil =>
      rw [mergeLists_nil_right, List.chain'_map]
      exact hA
    | cons b B ihB =>
      rw [mergeLists_cons_cons]
      rw [List.chain'_cons'] at hA hB
      by_cases hp : less (proj1 b) (proj0 a) = true
      · rw [if_pos hp, List.chain'_cons']
        refine ⟨?_, ihB hB.2⟩
        intro y hy
        rcases mergeLists_head less proj0 proj1 (a :: A) B y hy with ⟨a', ha', rfl⟩ | ⟨b', hb', rfl⟩
        · simp at ha'
          subst ha'
          exact hless.asymm hp
        · exact hB.1 b' hb'
      · rw [if_neg hp, List.chain'_cons']
        refine ⟨?_, ihA (b :: B) hA.2 (List.chain'_cons'.mpr hB)⟩
        intro y hy
        rcases mergeLists_head less proj0 proj1 A (b :: B) y hy with ⟨a', ha', rfl⟩ | ⟨b', hb', rfl⟩
        · exact hA.1 a' ha'
        · simp at hb'
          subst hb'
          simpa [keyOf] using hp

theorem mergeLists_stable {α β κ : Type} (less : κ → κ → Bool)
    (hless : StrictWeakOrder less) (proj0 : α → κ) (proj1 : β → κ) (A : List α) (B : List β)
    (hA : NonDescending less proj0 A) :
    (mergeLists less proj0 proj1 A B).Pairwise
      (fun x y => ∀ b a, x = Sum.inr b → y = Sum.inl a → less (proj1 b) (proj0 a) = true) := by
  have hA' := hA.pairwise hless
  clear hA
  induction A generalizing B with
  | nil =>
    simp only [mergeLists]
    rw [List.pairwise_map]
    exact List.pairwise_of_forall (fun x y => by intro b a _ h; cases h)
  | cons a A ihA =>
    induction B with
    | nil =>
      rw [mergeLists_nil_right, List.pairwise_map]
      exact List.pairwise_of_forall (fun x y => by intro b a h _; cases h)
    | cons b B ihB =>
      rw [mergeLists_cons_cons]
      by_cases hp : less (proj1 b) (proj0 a) = true
      · rw [if_pos hp, List.pairwise_cons]
        refine ⟨?_, ihB⟩
        intro y hy b' a' hb' ha'
        cases hb'
        subst ha'
        rw [mergeLists_mem_inl] at hy
        rcases List.mem_cons.mp hy with rfl | hmem
        · exact hp
        · have h1 : less (proj0 a') (proj0 a) = false := (List.pairwise_cons.mp hA').1 a' hmem
          rcases hless.neg_trans (y := proj0 a') hp with h2 | h2
          · exact h2
          · rw [h2] at h1; exact absurd h1 (by decide)
      · rw [if_neg hp, List.pairwise_cons]
        refine ⟨?_, ihA (b :: B) (List.pairwise_cons.mp hA').2⟩
        intro y _ b' a' hb' _
        cases hb'

theorem enumFrom_inl_lt_inr {α β : Type} (R : α → β → Prop) (xs : List (α ⊕ β)) (start : Nat)
    (hxs : xs.Pairwise (fun x y => ∀ b a, x = Sum.inr b → y = Sum.inl a → ¬ R a b))
    (p q : Nat) (a : α) (b : β) (hp : (p, Sum.inl a) ∈ xs.enumFrom start)
    (hq : (q, Sum.inr b) ∈ xs.enumFrom start) (hab : R a b) : p < q := by
  rw [List.mk_mem_enumFrom_iff_le_and_getElem?_sub] at hp hq
  obtain ⟨hp1, hp2⟩ := hp
  obtain ⟨hq1, hq2⟩ := hq
  obtain ⟨hpl, hpe⟩ := List.getElem?_eq_some.mp hp2
  obtain ⟨hql, hqe⟩ := List.getElem?_eq_some.mp hq2
  rcases Nat.lt_trichotomy p q with h | h | h
  · exact h
  · subst h
    rw [hp2] at hq2
    cases hq2
  · exfalso
    have := List.pairwise_iff_getElem.mp hxs (q - start) (p - start) hql hpl (by omega)
    exact this b a hqe hpe hab

theorem map_inl_filterMap_getLeft_sublist {α β : Type} (xs : List (α ⊕ β)) :
    List.Sublist ((xs.filterMap Sum.getLeft?).map Sum.inl) xs := by
  induction xs with
  | nil => simp
  | cons x xs ih =>
    cases x with
    | inl a => simpa using ih
    | inr b => simpa using ih.trans (List.sublist_cons_self _ _)

theorem map_inr_filterMap_getRight_sublist {α β : Type} (xs : List (α ⊕ β)) :
    List.Sublist ((xs.filterMap Sum.getRight?).map Sum.inr) xs := by
  induction xs with
  | nil => simp
  | cons x xs ih =>
    cases x with
    | inl a => simpa using ih.trans (List.sublist_cons_self _ _)
    | inr b => simpa using ih

/-! ## Tails that the comparison loop never reaches -/

theorem mergeLists_all_left {α β κ₀ κ₁ : Type} (pred : κ₁ → κ₀ → Bool) (proj0 : α → κ₀)
    (proj1 : β → κ₁) (A : List α) (T : List β)
    (hT : ∀ t ∈ T, ∀ a ∈ A, pred (proj1 t) (proj0 a) = false) :
    mergeLists pred proj0 proj1 A T = A.map Sum.inl ++ T.map Sum.inr := by
  induction A with
  | nil => simp [mergeLists]
  | cons a A ih =>
    cases T with
    | nil => simp [mergeLists]
    | cons t T =>
      have h1 : pred (proj1 t) (proj0 a) = false :=
        hT t (List.mem_cons_self _ _) a (List.mem_cons_self _ _)
      rw [mergeLists_cons_cons, h1]
      simp only [Bool.false_eq_true, if_false, List.map_cons, List.cons_append]
      rw [ih (fun t' ht' a' ha' => hT t' ht' a' (List.mem_cons_of_mem _ ha'))]
      simp

theorem mergeLists_append_right {α β κ₀ κ₁ : Type} (pred : κ₁ → κ₀ → Bool) (proj0 : α → κ₀)
    (proj1 : β → κ₁) (A : List α) (B T : List β)
    (hT : ∀ t ∈ T, ∀ a ∈ A, pred (proj1 t) (proj0 a) = false) :
    mergeLists pred proj0 proj1 A (B ++ T)
      = mergeLists pred proj0 proj1 A B ++ T.map Sum.inr := by
  induction A generalizing B with
  | nil => simp [mergeLists]
  | cons a A ihA =>
    induction B with
    | nil =>
      rw [List.nil_append, mergeLists_all_left pred proj0 proj1 (a :: A) T hT,
        mergeLists_nil_right]
    | cons b B ihB =>
      rw [List.cons_append, mergeLists_cons_cons, mergeLists_cons_cons]
      split
      · rw [ihB]; rfl
      · rw [← List.cons_append,
          ihA (b :: B) (fun t' ht' a' ha' => hT t' ht' a' (List.mem_cons_of_mem _ ha'))]
        rfl

theorem mergeLists_all_right {α β κ₀ κ₁ : Type} (pred : κ₁ → κ₀ → Bool) (proj0 : α → κ₀)
    (proj1 : β → κ₁) (T : List α) (B : List β)
    (hT : ∀ t ∈ T, ∀ b ∈ B, pred (proj1 b) (proj0 t) = true) :
    mergeLists pred proj0 proj1 T B = B.map Sum.inr ++ T.map Sum.inl := by
  induction B with
  | nil => simp [mergeLists_nil_right]
  | cons b B ih =>
    cases T with
    | nil => simp [mergeLists]
    | cons t T =>
      have h1 : pred (proj1 b) (proj0 t) = true :=
        hT t (List.mem_cons_self _ _) b (List.mem_cons_self _ _)
      rw [mergeLists_cons_cons, h1]
      simp only [if_true, List.map_cons, List.cons_append]
      rw [ih (fun t' ht' b' hb' => hT t' ht' b' (List.mem_cons_of_mem _ hb'))]
      simp

theorem mergeLists_append_left {α β κ₀ κ₁ : Type} (pred : κ₁ → κ₀ → Bool) (proj0 : α → κ₀)
    (proj1 : β → κ₁) (A T : List α) (B : List β)
    (hT : ∀ t ∈ T, ∀ b ∈ B, pred (proj1 b) (proj0 t) = true) :
    mergeLists pred proj0 proj1 (A ++ T) B
      = mergeLists pred proj0 proj1 A B ++ T.map Sum.inl := by
  induction A generalizing B with
  | nil =>
    rw [List.nil_append, mergeLists_all_right pred proj0 proj1 T B hT]
    simp [mergeLists]
  | cons a A ihA =>
    induction B with
    | nil => simp [mergeLists_nil_right]
    | cons b B ihB =>
      rw [List.cons_append, mergeLists_cons_cons, mergeLists_cons_cons]
      split
      · rw [← List.cons_append,
          ihB (fun t' ht' b' hb' => hT t' ht' b' (List.mem_cons_of_mem _ hb'))]
        rfl
      · rw [ihA (b :: B) hT]; rfl

/-! ## The claims on `merge` -/

/-- C1, merge ordering: when `less` is a strict weak order and each input is
non-descending under `less` through its own projection, `merge` completes and no
element it writes has a key, taken through the projection of the input the element
came from, that `less` puts before the key of the element written just before it. -/
theorem merge_ordering {α β κ : Type} (less : κ → κ → Bool) (proj0 : α → κ) (proj1 : β → κ)
    (A : List α) (B : List β) (start : Nat) (hless : StrictWeakOrder less)
    (hA : NonDescending less proj0 A) (hB : NonDescending less proj1 B) :
    ∃ r, merge less proj0 proj1 A B (Sink.fresh start) = some r ∧
      List.Chain' (fun x y => less (keyOf proj0 proj1 y) (keyOf proj0 proj1 x) = false)
        r.out.written := by
  refine ⟨_, merge_fresh less proj0 proj1 A B start, ?_⟩
  simp only [Sink.written, List.enumFrom_map_snd]
  exact mergeLists_nonDescending less hless proj0 proj1 A B hA hB

/-- Witness of C1 at `A = [1, 3, 5]`, `B = [2, 4, 6, 8]` with the default predicate
and projections. -/
theorem merge_ordering_witness :
    StrictWeakOrder ordered_less ∧ NonDescending ordered_less ident [1, 3, 5] ∧
      NonDescending ordered_less ident [2, 4, 6, 8] ∧
      ∃ r, merge ordered_less ident ident [1, 3, 5] [2, 4, 6, 8] (Sink.fresh 0) = some r ∧
        List.Chain' (fun x y => ordered_less (keyOf ident ident y) (keyOf ident ident x) = false)
          r.out.written :=
  ⟨strictWeakOrder_ordered_less, by simp [NonDescending, ordered_less, ident],
    by simp [NonDescending, ordered_less, ident],
    merge_ordering ordered_less ident ident [1, 3, 5] [2, 4, 6, 8] 0
      strictWeakOrder_ordered_less (by simp [NonDescending, ordered_less, ident])
      (by simp [NonDescending, ordered_less, ident])⟩

/-- C2, merge stability: when `less` is a strict weak order and both inputs are
non-descending, `merge` completes, every element of `A` and every element of `B` is
written, and whenever an element `a` read from `A` and an element `b` read from `B`
have equivalent keys, the sink position `a` is written at is before the one `b` is
written at.  For `A = [(1, "a")]`, `B = [(1, "b")]` and `less` on the first component
the output is `[(1, "a"), (1, "b")]`. -/
theorem merge_stability {α β κ : Type} (less : κ → κ → Bool) (proj0 : α → κ) (proj1 : β → κ)
    (A : List α) (B : List β) (start : Nat) (hless : StrictWeakOrder less)
    (hA : NonDescending less proj0 A) (_hB : NonDescending less proj1 B) :
    (∃ r, merge less proj0 proj1 A B (Sink.fresh start) = some r ∧
      (∀ a ∈ A, ∃ p, (p, Sum.inl a) ∈ r.out.log) ∧
      (∀ b ∈ B, ∃ q, (q, Sum.inr b) ∈ r.out.log) ∧
      ∀ p q a b, (p, Sum.inl a) ∈ r.out.log → (q, Sum.inr b) ∈ r.out.log →
        less (proj0 a) (proj1 b) = false → less (proj1 b) (proj0 a) = false → p < q) ∧
    mergeOutput ordered_less Prod.fst Prod.fst [(1, "a")] [(1, "b")]
      = some [(1, "a"), (1, "b")] := by
  refine ⟨⟨_, merge_fresh less proj0 proj1 A B start, ?_, ?_, ?_⟩, by decide⟩
  · intro a ha
    obtain ⟨n, hn⟩ := List.mem_iff_getElem?.mp
      ((mergeLists_mem_inl less proj0 proj1 A B a).mpr ha)
    exact ⟨start + n, List.mk_add_mem_enumFrom_iff_getElem?.mpr hn⟩
  · intro b hb
    obtain ⟨n, hn⟩ := List.mem_iff_getElem?.mp
      ((mergeLists_mem_inr less proj0 proj1 A B b).mpr hb)
    exact ⟨start + n, List.mk_add_mem_enumFrom_iff_getElem?.mpr hn⟩
  · intro p q a b hp hq _ hba
    refine enumFrom_inl_lt_inr (fun a b => less (proj1 b) (proj0 a) = false) _ start ?_
      p q a b hp hq hba
    refine (mergeLists_stable less hless proj0 proj1 A B hA).imp ?_
    intro x y h b a hx hy
    simp [h b a hx hy]

/-- Witness of C2 at the inputs of the spec, `A = [(1, "a")]` and `B = [(1, "b")]`,
compared on the first component. -/
theorem merge_stability_witness :
    StrictWeakOrder ordered_less ∧
      NonDescending ordered_less Prod.fst [(1, "a")] ∧
      NonDescending ordered_less Prod.fst [(1, "b")] ∧
      ((∃ r, merge ordered_less Prod.fst Prod.fst [(1, "a")] [(1, "b")] (Sink.fresh 0) = some r ∧
        (∀ a ∈ [(1, "a")], ∃ p, (p, Sum.inl a) ∈ r.out.log) ∧
        (∀ b ∈ [(1, "b")], ∃ q, (q, Sum.inr b) ∈ r.out.log) ∧
        ∀ p q a b, (p, Sum.inl a) ∈ r.out.log → (q, Sum.inr b) ∈ r.out.log →
          ordered_less (Prod.fst a) (Prod.fst b) = false →
          ordered_less (Prod.fst b) (Prod.fst a) = false → p < q) ∧
      mergeOutput ordered_less Prod.fst Prod.fst [(1, "a")] [(1, "b")]
        = some [(1, "a"), (1, "b")]) :=
  ⟨strictWeakOrder_ordered_less, by simp [NonDescending],
    by simp [NonDescending],
    merge_stability ordered_less Prod.fst Prod.fst [(1, "a")] [(1, "b")] 0
      strictWeakOrder_ordered_less (by simp [NonDescending])
      (by simp [NonDescending])⟩

/-- C3, merge is an interleaving: for any predicate, projections and inputs, sorted
or not, `merge` completes; its writes go to the consecutive sink positions from the
start, one write each; the writes read from `A` are, in order, exactly the elements
of `A`, and those read from `B` exactly the elements of `B`; so both inputs lie in
the output as subsequences and the output is a permutation of `A` followed by `B`. -/
theorem merge_interleaving {α β κ₀ κ₁ : Type} (pred : κ₁ → κ₀ → Bool) (proj0 : α → κ₀)
    (proj1 : β → κ₁) (A : List α) (B : List β) (start : Nat) :
    ∃ r, merge pred proj0 proj1 A B (Sink.fresh start) = some r ∧
      r.out.log.map Prod.fst = List.range' start (A.length + B.length) ∧
      r.out.written.filterMap Sum.getLeft? = A ∧
      r.out.written.filterMap Sum.getRight? = B ∧
      List.Sublist (A.map Sum.inl) r.out.written ∧
      List.Sublist (B.map Sum.inr) r.out.written ∧
      List.Perm r.out.written (A.map Sum.inl ++ B.map Sum.inr) := by
  refine ⟨_, merge_fresh pred proj0 proj1 A B start, ?_, ?_, ?_, ?_, ?_, ?_⟩
  · simp [mergeLists_length]
  · simp [Sink.written, mergeLists_lefts]
  · simp [Sink.written, mergeLists_rights]
  · have := map_inl_filterMap_getLeft_sublist (mergeLists pred proj0 proj1 A B)
    rw [mergeLists_lefts] at this
    simpa [Sink.written] using this
  · have := map_inr_filterMap_getRight_sublist (mergeLists pred proj0 proj1 A B)
    rw [mergeLists_rights] at this
    simpa [Sink.written] using this
  · simpa [Sink.written] using mergeLists_perm pred proj0 proj1 A B

/-- C4, merge length: for any predicate, projections and inputs, sorted or not,
`merge` returns a result, and the number of writes made through the sink is
`A.length + B.length`. -/
theorem merge_length {α β κ₀ κ₁ : Type} (pred : κ₁ → κ₀ → Bool) (proj0 : α → κ₀)
    (proj1 : β → κ₁) (A : List α) (B : List β) (start : Nat) :
    ∃ r, merge pred proj0 proj1 A B (Sink.fresh start) = some r ∧
      r.out.log.length = A.length + B.length ∧
      r.out.written.length = A.length + B.length := by
  refine ⟨_, merge_fresh pred proj0 proj1 A B start, ?_, ?_⟩
  · simp [mergeLists_length]
  · simp [Sink.written, mergeLists_length]

/-- C5, merge result: the triple `merge` returns holds the end position of `A`, the
end position of `B`, and the start position of the sink advanced by
`A.length + B.length`, which is one past the position of the last write. -/
theorem merge_result {α β κ₀ κ₁ : Type} (pred : κ₁ → κ₀ → Bool) (proj0 : α → κ₀)
    (proj1 : β → κ₁) (A : List α) (B : List β) (start : Nat) :
    ∃ r, merge pred proj0 proj1 A B (Sink.fresh start) = some r ∧
      r.in0 = A.length ∧ r.in1 = B.length ∧
      r.out.pos = start + (A.length + B.length) ∧
      ∀ e, r.out.log.getLast? = some e → r.out.pos = e.1 + 1 := by
  refine ⟨_, merge_fresh pred proj0 proj1 A B start, rfl, rfl, ?_, ?_⟩
  · simp [mergeLists_length]
  · intro e he
    simp only [List.getLast?_enumFrom, Option.map_eq_some'] at he
    obtain ⟨x, hx, rfl⟩ := he
    have hne : (mergeLists pred proj0 proj1 A B).length ≠ 0 := by
      intro h0
      rw [List.length_eq_zero] at h0
      rw [h0] at hx
      simp at hx
    simp only
    omega

/-- C6 as amended, merge exhaustion remainder: when no element of the tail `T` of
the second input has a key that `pred` puts before the key of an element of `A`,
`merge A (B ++ T)` makes the writes of `merge A B` and then writes `T` verbatim and
in order; and when `pred` puts the key of every element of `B` before the key of
every element of the tail `T'` of the first input, `merge (A ++ T') B` makes the
writes of `merge A B` and then writes `T'` verbatim and in order.  For
`A = [1, 3, 5]`, `B = [2, 4, 6, 8]` with the defaults the output is
`[1, 2, 3, 4, 5, 6, 8]`. -/
theorem merge_remainder {α β κ₀ κ₁ : Type} (pred : κ₁ → κ₀ → Bool) (proj0 : α → κ₀)
    (proj1 : β → κ₁) (A : List α) (B : List β) (T : List β) (T' : List α) (start : Nat)
    (hT : ∀ t ∈ T, ∀ a ∈ A, pred (proj1 t) (proj0 a) = false)
    (hT' : ∀ t ∈ T', ∀ b ∈ B, pred (proj1 b) (proj0 t) = true) :
    (∃ r r₁ r₂, merge pred proj0 proj1 A B (Sink.fresh start) = some r ∧
      merge pred proj0 proj1 A (B ++ T) (Sink.fresh start) = some r₁ ∧
      merge pred proj0 proj1 (A ++ T') B (Sink.fresh start) = some r₂ ∧
      r₁.out.log = r.out.log ++ (T.map Sum.inr).enumFrom r.out.pos ∧
      r₂.out.log = r.out.log ++ (T'.map Sum.inl).enumFrom r.out.pos) ∧
    mergeOutput ordered_less ident ident [1, 3, 5] [2, 4, 6, 8]
      = some [1, 2, 3, 4, 5, 6, 8] := by
  refine ⟨⟨_, _, _, merge_fresh pred proj0 proj1 A B start,
    merge_fresh pred proj0 proj1 A (B ++ T) start,
    merge_fresh pred proj0 proj1 (A ++ T') B start, ?_, ?_⟩, by decide⟩
  · simp only [mergeLists_append_right pred proj0 proj1 A B T hT, List.enumFrom_append]
  · simp only [mergeLists_append_left pred proj0 proj1 A T' B hT', List.enumFrom_append]

/-- Witness of C6 as amended at `A = [1, 3, 5]`, `B = [2, 4, 6]`, the tail `T = [8]`
of the second input and the tail `T' = [9]` of the first. -/
theorem merge_remainder_witness :
    (∀ t ∈ [8], ∀ a ∈ [1, 3, 5], ordered_less (ident t) (ident a) = false) ∧
    (∀ t ∈ [9], ∀ b ∈ [2, 4, 6], ordered_less (ident b) (ident t) = true) ∧
    ((∃ r r₁ r₂, merge ordered_less ident ident [1, 3, 5] [2, 4, 6] (Sink.fresh 0) = some r ∧
      merge ordered_less ident ident [1, 3, 5] ([2, 4, 6] ++ [8]) (Sink.fresh 0) = some r₁ ∧
      merge ordered_less ident ident ([1, 3, 5] ++ [9]) [2, 4, 6] (Sink.fresh 0) = some r₂ ∧
      r₁.out.log = r.out.log ++ ([8].map Sum.inr).enumFrom r.out.pos ∧
      r₂.out.log = r.out.log ++ ([9].map Sum.inl).enumFrom r.out.pos) ∧
    mergeOutput ordered_less ident ident [1, 3, 5] [2, 4, 6, 8]
      = some [1, 2, 3, 4, 5, 6, 8]) :=
  ⟨by decide, by decide,
    merge_remainder ordered_less ident ident [1, 3, 5] [2, 4, 6] [8] [9] 0
      (by decide) (by decide)⟩

/-- C6 as stated fails in its symmetric half: with `less` on the first component,
`T = [(1, "a")]` as the tail of an empty first input and `B = [(1, "b")]`, no element
of `B` strictly precedes an element of `T` and no element of `T` strictly precedes
an element of `B`, yet `merge` writes `T` before `B`, not after it. -/
theorem merge_remainder_symmetric_counterexample :
    ¬ (∀ (A T B : List (Nat × String)),
        (∀ t ∈ T, ∀ b ∈ B, ordered_less (Prod.fst b) (Prod.fst t) = false) →
        (∀ t ∈ T, ∀ b ∈ B, ordered_less (Prod.fst t) (Prod.fst b) = false) →
        mergeOutput ordered_less Prod.fst Prod.fst (A ++ T) B
          = (mergeOutput ordered_less Prod.fst Prod.fst A B).map (fun o => o ++ T)) := by
  intro h
  have h1 := h [] [(1, "a")] [(1, "b")] (by decide) (by decide)
  revert h1
  decide

/-- C7, merge with an empty input: `merge [] B` completes, writes exactly `B` in
order to the consecutive sink positions, and returns position `0` for the first
input, its start and its end at once, and the end of `B` for the second;
`merge A []` writes exactly `A` and returns the end of `A` and position `0`.  For
`A = []`, `B = [1, 2, 3]` the output is `[1, 2, 3]`. -/
theorem merge_empty_input {α β κ₀ κ₁ : Type} (pred : κ₁ → κ₀ → Bool) (proj0 : α → κ₀)
    (proj1 : β → κ₁) (A : List α) (B : List β) (start : Nat) :
    (∃ r, merge pred proj0 proj1 [] B (Sink.fresh start) = some r ∧
      r.in0 = 0 ∧ r.in0 = ([] : List α).length ∧ r.in1 = B.length ∧
      r.out.written = B.map Sum.inr ∧
      r.out.log = (B.map Sum.inr).enumFrom start ∧ r.out.pos = start + B.length) ∧
    (∃ r, merge pred proj0 proj1 A [] (Sink.fresh start) = some r ∧
      r.in0 = A.length ∧ r.in1 = 0 ∧
      r.out.written = A.map Sum.inl ∧
      r.out.log = (A.map Sum.inl).enumFrom start ∧ r.out.pos = start + A.length) ∧
    mergeOutput ordered_less ident ident [] [1, 2, 3] = some [1, 2, 3] := by
  refine ⟨⟨_, merge_fresh pred proj0 proj1 [] B start, rfl, rfl, rfl, ?_, ?_, ?_⟩,
    ⟨_, merge_fresh pred proj0 proj1 A [] start, rfl, rfl, ?_, ?_, ?_⟩, by decide⟩
  · simp [Sink.written, mergeLists]
  · simp [mergeLists]
  · simp [mergeLists]
  · simp [Sink.written, mergeLists_nil_right]
  · simp [mergeLists_nil_right]
  · simp [mergeLists_nil_right]

/-- C8 as amended: for `A = [1, 3, 5]` and `B = [2, 4, 6, 8]` with the default
predicate and projections the comparison loop stops with the first cursor at the end
of `A` and the second at position `2`, after the writes `1, 2, 3, 4, 5`; the elements
of `B` from that position on are `[6, 8]`; the copy of the rest of `A` writes nothing
and the copy of the rest of `B` writes exactly `6, 8`, which ends the output of
`merge`. -/
theorem merge_remainder_example :
    ∃ o, mergeLoop ordered_less ident ident [1, 3, 5] [2, 4, 6, 8] 7 0 0 (Sink.fresh 0)
        = some (3, 2, o) ∧
      o.written = [Sum.inl 1, Sum.inr 2, Sum.inl 3, Sum.inr 4, Sum.inl 5] ∧
      List.drop 2 [2, 4, 6, 8] = [6, 8] ∧
      copy Sum.inl [1, 3, 5] 3 3 o = (3, o) ∧
      (copy Sum.inr [2, 4, 6, 8] 2 4 o).2.log = o.log ++ [(5, Sum.inr 6), (6, Sum.inr 8)] ∧
      merge ordered_less ident ident [1, 3, 5] [2, 4, 6, 8] (Sink.fresh 0)
        = some ⟨3, 4, (copy Sum.inr [2, 4, 6, 8] 2 4 o).2⟩ ∧
      mergeOutput ordered_less ident ident [1, 3, 5] [2, 4, 6, 8]
        = some ([1, 2, 3, 4, 5] ++ [6, 8]) :=
  ⟨⟨5, [(0, Sum.inl 1), (1, Sum.inr 2), (2, Sum.inl 3), (3, Sum.inr 4), (4, Sum.inl 5)]⟩,
    by decide⟩

/-- C8 as stated fails: for `A = [1, 3, 5]` and `B = [2, 4, 6, 8]` the comparison loop
does not stop in a state where the unconsumed elements of `B`, the ones the copy
after the loop writes, are `[8]`. -/
theorem merge_remainder_example_counterexample :
    ¬ ∃ b0 b1 o,
      mergeLoop ordered_less ident ident [1, 3, 5] [2, 4, 6, 8] 7 0 0 (Sink.fresh 0)
        = some (b0, b1, o) ∧
      (List.drop b1 [2, 4, 6, 8] = [8] ∨
        (copy Sum.inr [2, 4, 6, 8] b1 4 (copy Sum.inl [1, 3, 5] b0 3 o).2).2.log
          = o.log ++ [(o.pos, Sum.inr 8)]) := by
  rintro ⟨b0, b1, o, h, h2⟩
  have h3 : mergeLoop ordered_less ident ident [1, 3, 5] [2, 4, 6, 8] 7 0 0 (Sink.fresh 0)
      = some (3, 2, ⟨5, [(0, Sum.inl 1), (1, Sum.inr 2), (2, Sum.inl 3), (3, Sum.inr 4),
          (4, Sum.inl 5)]⟩) := by decide
  rw [h3] at h
  cases h
  revert h2
  decide

/-! ## Lemmas on the accessor and on the traversal of `zip_view` -/

theorem indirect_zip_fn_.reference_slot {n : Nat} {It Ref : Fin n → Type}
    (deref : ∀ k, It k → Ref k) (its : ∀ k, It k) (k : Fin n) :
    (indirect_zip_fn_.reference deref its).slot k = deref k (its k) := by
  unfold indirect_zip_fn_.reference
  by_cases hn : n = 2
  · subst hn
    rw [dif_pos rfl]
    match k with
    | ⟨0, _⟩ => rfl
    | ⟨1, _⟩ => rfl
  · rw [dif_neg hn]
    rfl

theorem bundleAt_at_end {n : Nat} {T : Fin n → Type} (rngs : ∀ k, List (T k)) (i : Nat)
    (h : ∀ k, i ≤ (rngs k).length) :
    iter_zip_with_view.at_end (bundleAt rngs i h) ↔ ∃ k, i = (rngs k).length :=
  Iff.rfl

theorem start_eq_bundleAt {n : Nat} {T : Fin n → Type} (rngs : ∀ k, List (T k)) :
    iter_zip_with_view.start rngs = bundleAt rngs 0 (fun _ => Nat.zero_le _) :=
  rfl

theorem traverse_at_end {n : Nat} {T : Fin n → Type} {R : Type}
    (fun_ : (∀ k, ReadableCursor (T k)) → R) (fuel : Nat) (b : Bundle T)
    (h : iter_zip_with_view.at_end b) : iter_zip_with_view.traverse fun_ fuel b = some [] := by
  cases fuel <;> simp [iter_zip_with_view.traverse, h]

theorem traverse_mono {n : Nat} {T : Fin n → Type} {R : Type}
    (fun_ : (∀ k, ReadableCursor (T k)) → R) (fuel : Nat) :
    ∀ (b : Bundle T) (l : List R), iter_zip_with_view.traverse fun_ fuel b = some l →
      ∀ fuel', fuel ≤ fuel' → iter_zip_with_view.traverse fun_ fuel' b = some l := by
  induction fuel with
  | zero =>
    intro b l h fuel' _
    by_cases he : iter_zip_with_view.at_end b
    · simp only [iter_zip_with_view.traverse, if_pos he] at h
      rw [← h]
      exact traverse_at_end fun_ fuel' b he
    · simp [iter_zip_with_view.traverse, he] at h
  | succ fuel ih =>
    intro b l h fuel' hle
    by_cases he : iter_zip_with_view.at_end b
    · simp only [iter_zip_with_view.traverse, if_pos he] at h
      rw [← h]
      exact traverse_at_end fun_ fuel' b he
    · obtain ⟨fuel', rfl⟩ : ∃ f, fuel' = f + 1 := ⟨fuel' - 1, by omega⟩
      simp only [iter_zip_with_view.traverse, if_neg he] at h ⊢
      cases hc : iter_zip_with_view.current fun_ b with
      | none => simp [hc] at h
      | some c =>
        cases ha : iter_zip_with_view.advance b with
        | none => simp [hc, ha] at h
        | some b' =>
          simp only [hc, ha] at h ⊢
          cases ht : iter_zip_with_view.traverse fun_ fuel b' with
          | none => simp [ht] at h
          | some rest =>
            rw [ih b' rest ht fuel' (by omega)]
            simpa [ht] using h

theorem traverse_bundleAt {n : Nat} {T : Fin n → Type} (rngs : ∀ k, List (T k)) (d : Nat) :
    ∀ (fuel i : Nat) (h : ∀ k, i ≤ (rngs k).length), (∀ k, i + d ≤ (rngs k).length) →
      (∃ k, i + d = (rngs k).length) → d ≤ fuel →
      ∃ l, iter_zip_with_view.traverse zip_view.accessor fuel (bundleAt rngs i h) = some l ∧
        l.length = d ∧
        ∀ (j : Nat) (c : Composite T), l[j]? = some c →
          ∀ k, (rngs k)[i + j]? = some (c.slot k) := by
  induction d with
  | zero =>
    intro fuel i h _ hex _
    refine ⟨[], traverse_at_end _ fuel _ ?_, rfl, ?_⟩
    · simpa using hex
    · intro j c hj
      simp at hj
  | succ d ih =>
    intro fuel i h hle hex hfuel
    obtain ⟨fuel, rfl⟩ : ∃ f, fuel = f + 1 := ⟨fuel - 1, by omega⟩
    have hlt : ∀ k, i < (rngs k).length := fun k => by have := hle k; omega
    have hne : ¬ iter_zip_with_view.at_end (bundleAt rngs i h) := by
      rintro ⟨k, hk⟩
      have := hlt k
      simp only [Cursor.equals, bundleAt] at hk
      omega
    obtain ⟨l, hl, hlen, hslots⟩ := ih fuel (i + 1) (fun k => hlt k)
      (fun k => by have := hle k; omega)
      (by obtain ⟨k, hk⟩ := hex; exact ⟨k, by omega⟩) (by omega)
    have hadv : iter_zip_with_view.advance (bundleAt rngs i h)
        = some (bundleAt rngs (i + 1) (fun k => hlt k)) := by
      simp only [iter_zip_with_view.advance, dif_neg hne]
      rfl
    refine ⟨zip_view.accessor (fun k => ⟨bundleAt rngs i h k, fun hk => hne ⟨k, hk⟩⟩) :: l,
      ?_, by simp [hlen], ?_⟩
    · simp only [iter_zip_with_view.traverse, if_neg hne, iter_zip_with_view.current,
        dif_neg hne, hadv, hl, Option.map_some']
    · intro j c hj k
      cases j with
      | zero =>
        simp only [List.getElem?_cons_zero, Option.some.injEq] at hj
        subst hj
        rw [zip_view.accessor, indirect_zip_fn_.reference_slot]
        simp only [Nat.add_zero, ReadableCursor.deref, Cursor.current, bundleAt]
        rw [List.getElem?_eq_getElem (hlt k)]
        rfl
      | succ j =>
        simp only [List.getElem?_cons_succ] at hj
        have := hslots j c hj k
        rw [← this]
        congr 1
        omega

theorem exists_min_length {n : Nat} {T : Fin n → Type} (rngs : ∀ k, List (T k)) (hn : 0 < n) :
    ∃ m, (∀ k, m ≤ (rngs k).length) ∧ ∃ k, m = (rngs k).length := by
  obtain ⟨k, _, hk⟩ := Finset.exists_min_image Finset.univ (fun k : Fin n => (rngs k).length)
    ⟨⟨0, hn⟩, Finset.mem_univ _⟩
  exact ⟨(rngs k).length, fun k' => hk k' (Finset.mem_univ _), k, rfl⟩

theorem zip_spec {n : Nat} {T : Fin n → Type} (rngs : ∀ k, List (T k)) (hn : 0 < n) :
    ∃ l, zip rngs = some l ∧
      (∀ fuel, l.length ≤ fuel →
        iter_zip_with_view.traverse zip_view.accessor fuel (iter_zip_with_view.start rngs)
          = some l) ∧
      (∀ k, l.length ≤ (rngs k).length) ∧ (∃ k, l.length = (rngs k).length) ∧
      ∀ (j : Nat) (c : Composite T), l[j]? = some c →
        ∀ k, (rngs k)[j]? = some (c.slot k) := by
  obtain ⟨m, hm, hex⟩ := exists_min_length rngs hn
  obtain ⟨l, hl, hlen, hslots⟩ := traverse_bundleAt rngs m m 0
    (fun _ => Nat.zero_le _) (fun k => by simpa using hm k)
    (by obtain ⟨k, hk⟩ := hex; exact ⟨k, by simpa using hk⟩) (Nat.le_refl _)
  rw [← start_eq_bundleAt] at hl
  refine ⟨l, ?_, ?_, ?_, ?_, ?_⟩
  · simp only [zip, dif_neg (Nat.pos_iff_ne_zero.mp hn), zip_view.elements]
    exact traverse_mono _ m _ l hl _ (hm _)
  · intro fuel hf
    exact traverse_mono _ m _ l hl fuel (by omega)
  · intro k; rw [hlen]; exact hm k
  · rw [hlen]; exact hex
  · intro j c hj k
    simpa using hslots j c hj k

/-! ## The claims on `zip` -/

/-- C9, zip length: for `n ≥ 1` input sequences `zip` yields a sequence, whatever the
lengths of the inputs; its length is at most the length of every input and equal to
the length of one of them, that is, the minimum of the lengths; any traversal budget
of at least that length produces it; and a bundle in which any one cursor equals its
terminator is at end, so that the traversal from it produces nothing more. -/
theorem zip_length {n : Nat} {T : Fin n → Type} (rngs : ∀ k, List (T k)) (hn : 0 < n) :
    (∃ l, zip rngs = some l ∧
      (∀ k, l.length ≤ (rngs k).length) ∧ (∃ k, l.length = (rngs k).length) ∧
      l.length = Finset.univ.inf' ⟨⟨0, hn⟩, Finset.mem_univ _⟩ (fun k => (rngs k).length) ∧
      ∀ fuel, l.length ≤ fuel →
        iter_zip_with_view.traverse zip_view.accessor fuel (iter_zip_with_view.start rngs)
          = some l) ∧
    ∀ (b : Bundle T) (fuel : Nat), (∃ k, (b k).pos = (b k).seq.length) →
      iter_zip_with_view.at_end b ∧
        iter_zip_with_view.traverse zip_view.accessor fuel b = some [] := by
  obtain ⟨l, hl, hfuel, hle, hex, _⟩ := zip_spec rngs hn
  refine ⟨⟨l, hl, hle, hex, ?_, hfuel⟩, fun b fuel hb => ⟨hb, traverse_at_end _ fuel b hb⟩⟩
  apply le_antisymm
  · exact (Finset.le_inf'_iff _ _).mpr (fun k _ => hle k)
  · obtain ⟨k, hk⟩ := hex
    rw [hk]
    exact Finset.inf'_le _ (Finset.mem_univ k)

/-- Witness of C9 at the three inputs `[1, 2, 3]`, `[4, 5]`, `[6, 7, 8, 9]`. -/
theorem zip_length_witness :
    0 < 3 ∧
    ((∃ l, zip (T := fun _ => Nat) ![[1, 2, 3], [4, 5], [6, 7, 8, 9]] = some l ∧
      (∀ k, l.length ≤ ((![[1, 2, 3], [4, 5], [6, 7, 8, 9]] : Fin 3 → List Nat) k).length) ∧
      (∃ k, l.length = ((![[1, 2, 3], [4, 5], [6, 7, 8, 9]] : Fin 3 → List Nat) k).length) ∧
      l.length = Finset.univ.inf' ⟨⟨0, by decide⟩, Finset.mem_univ _⟩
        (fun k => ((![[1, 2, 3], [4, 5], [6, 7, 8, 9]] : Fin 3 → List Nat) k).length) ∧
      ∀ fuel, l.length ≤ fuel →
        iter_zip_with_view.traverse zip_view.accessor fuel
          (iter_zip_with_view.start (T := fun _ => Nat) ![[1, 2, 3], [4, 5], [6, 7, 8, 9]])
          = some l) ∧
    ∀ (b : Bundle (fun _ : Fin 3 => Nat)) (fuel : Nat),
      (∃ k, (b k).pos = (b k).seq.length) →
      iter_zip_with_view.at_end b ∧
        iter_zip_with_view.traverse zip_view.accessor fuel b = some []) :=
  ⟨by decide, zip_length (T := fun _ => Nat) ![[1, 2, 3], [4, 5], [6, 7, 8, 9]] (by decide)⟩

/-- C10, zip content: for `n ≥ 1` inputs and a position `i` below the length of every
input, the zipped sequence has an element at position `i`, and slot `k` of that
element is the element at position `i` of input `k`; and the accessor in reference
mode, on any bundle of iterators, returns a composite whose slot `k` is the
dereference of iterator `k`, in the tuple form and in the pair form alike. -/
theorem zip_content {n : Nat} {T : Fin n → Type} (rngs : ∀ k, List (T k)) (hn : 0 < n)
    (i : Nat) (hi : ∀ k, i < (rngs k).length) :
    (∃ l c, zip rngs = some l ∧ l[i]? = some c ∧
      ∀ k, (rngs k)[i]? = some (c.slot k)) ∧
    (∀ (its : ∀ k, ReadableCursor (T k)) (k : Fin n),
      (zip_view.accessor its).slot k = (its k).1.current (its k).2) ∧
    (∀ (It Ref : Fin n → Type) (deref : ∀ k, It k → Ref k) (its : ∀ k, It k) (k : Fin n),
      (indirect_zip_fn_.reference deref its).slot k = deref k (its k)) ∧
    (∀ (It Ref : Fin n → Type) (deref : ∀ k, It k → Ref k) (h2 : n ≠ 2) (its : ∀ k, It k)
      (k : Fin n), indirect_zip_fn_.tuple_reference deref h2 its k = deref k (its k)) ∧
    ∀ (It1 It2 Ref1 Ref2 : Type) (deref1 : It1 → Ref1) (deref2 : It2 → Ref2) (it1 : It1)
      (it2 : It2),
      indirect_zip_fn_.pair_reference deref1 deref2 it1 it2 = (deref1 it1, deref2 it2) := by
  obtain ⟨l, hl, _, _, hex, hslots⟩ := zip_spec rngs hn
  have hil : i < l.length := by
    obtain ⟨k, hk⟩ := hex
    rw [hk]
    exact hi k
  refine ⟨⟨l, l[i], hl, List.getElem?_eq_getElem hil, ?_⟩, ?_, ?_, ?_, ?_⟩
  · exact hslots i l[i] (List.getElem?_eq_getElem hil)
  · intro its k
    rw [zip_view.accessor, indirect_zip_fn_.reference_slot]
    rfl
  · intro It Ref deref its k
    exact indirect_zip_fn_.reference_slot deref its k
  · intro It Ref deref h2 its k
    rfl
  · intro It1 It2 Ref1 Ref2 deref1 deref2 it1 it2
    rfl

/-- Witness of C10 at the three inputs `[1, 2, 3]`, `[4, 5]`, `[6, 7, 8, 9]` and
position `1`. -/
theorem zip_content_witness :
    0 < 3 ∧
    (∀ k, 1 < ((![[1, 2, 3], [4, 5], [6, 7, 8, 9]] : Fin 3 → List Nat) k).length) ∧
    ((∃ l c, zip (T := fun _ => Nat) ![[1, 2, 3], [4, 5], [6, 7, 8, 9]] = some l ∧
      l[1]? = some c ∧
      ∀ k, ((![[1, 2, 3], [4, 5], [6, 7, 8, 9]] : Fin 3 → List Nat) k)[1]?
        = some (c.slot k)) ∧
    (∀ (its : ∀ _ : Fin 3, ReadableCursor Nat) (k : Fin 3),
      (zip_view.accessor (T := fun _ => Nat) its).slot k = (its k).1.current (its k).2) ∧
    (∀ (It Ref : Fin 3 → Type) (deref : ∀ k, It k → Ref k) (its : ∀ k, It k) (k : Fin 3),
      (indirect_zip_fn_.reference deref its).slot k = deref k (its k)) ∧
    (∀ (It Ref : Fin 3 → Type) (deref : ∀ k, It k → Ref k) (h2 : 3 ≠ 2) (its : ∀ k, It k)
      (k : Fin 3), indirect_zip_fn_.tuple_reference deref h2 its k = deref k (its k)) ∧
    ∀ (It1 It2 Ref1 Ref2 : Type) (deref1 : It1 → Ref1) (deref2 : It2 → Ref2) (it1 : It1)
      (it2 : It2),
      indirect_zip_fn_.pair_reference deref1 deref2 it1 it2 = (deref1 it1, deref2 it2)) :=
  ⟨by decide, by decide,
    zip_content (T := fun _ => Nat) ![[1, 2, 3], [4, 5], [6, 7, 8, 9]] (by decide) 1
      (by decide)⟩

/-- The zip of `[1, 2, 3]`, `[4, 5]`, `[6, 7, 8, 9]`, slot by slot: two tuples. -/
theorem zip_example_three :
    (zip (T := fun _ => Nat) ![[1, 2, 3], [4, 5], [6, 7, 8, 9]]).map
      (fun l => l.map (fun c => (List.finRange 3).map c.slot))
      = some [[1, 4, 6], [2, 5, 7]] := by
  decide

/-- The zip of `[1, 2, 3]`, `[4, 5]`, slot by slot: two pairs. -/
theorem zip_example_two :
    (zip (T := fun _ => Nat) ![[1, 2, 3], [4, 5]]).map
      (fun l => l.map (fun c => (List.finRange 2).map c.slot))
      = some [[1, 4], [2, 5]] := by
  decide

/-! ## Lemmas on the modes of the accessor and on `and_v` -/

theorem indirect_zip_fn_.rvalue_reference_slot {n : Nat} {It RRef : Fin n → Type}
    (iter_move : ∀ k, It k → RRef k) (its : ∀ k, It k) (k : Fin n) :
    (indirect_zip_fn_.rvalue_reference iter_move its).slot k = iter_move k (its k) := by
  unfold indirect_zip_fn_.rvalue_reference
  by_cases hn : n = 2
  · subst hn
    rw [dif_pos rfl]
    match k with
    | ⟨0, _⟩ => rfl
    | ⟨1, _⟩ => rfl
  · rw [dif_neg hn]
    rfl

theorem indirect_zip_fn_.value_eq {n : Nat} {It Val : Fin n → Type} (its : ∀ k, It k) :
    (indirect_zip_fn_.value its : Except Abort (Composite Val))
      = Except.error Abort.expect_failed := by
  unfold indirect_zip_fn_.value
  by_cases hn : n = 2
  · rw [dif_pos hn]; rfl
  · rw [dif_neg hn]; rfl

theorem and_v_eq_true_iff (bs : List Bool) : and_v bs = true ↔ ∀ b ∈ bs, b = true := by
  induction bs with
  | nil => simp [and_v]
  | cons b bs ih => simp [and_v, ih]

theorem and_v_eq_all (bs : List Bool) : and_v bs = bs.all id := by
  induction bs with
  | nil => rfl
  | cons b bs ih => simp [and_v, ih]

/-! ## The claims on the accessor, on `zip()` and on borrowing -/

/-- C11, zip arity 0: `zip` called with no sequence is not an error; it yields the
sequence with no element, of length `0`, so that no position of it holds a composite
element. -/
theorem zip_arity_zero {T : Fin 0 → Type} (rngs : ∀ k, List (T k)) :
    zip rngs = some [] ∧
    ∃ l, zip rngs = some l ∧ l.length = 0 ∧ ∀ (i : Nat), l[i]? = none := by
  have h : zip rngs = some [] := by simp [zip]
  exact ⟨h, [], h, rfl, fun i => by simp⟩

/-- C12, value-probe mode always fails: on any number of iterators the accessor
called with `copy_tag` ends in the failed expectation and returns no composite
value, in the tuple overload and in the pair overload alike, while on the same
iterators the reference mode and the move mode return a composite whose slot `k` is
the dereference, respectively the `iter_move`, of iterator `k`. -/
theorem value_probe_aborts {n : Nat} {It Val Ref RRef : Fin n → Type}
    (deref : ∀ k, It k → Ref k) (iter_move : ∀ k, It k → RRef k) (its : ∀ k, It k) :
    (indirect_zip_fn_.value its : Except Abort (Composite Val))
      = Except.error Abort.expect_failed ∧
    (∀ c : Composite Val,
      (indirect_zip_fn_.value its : Except Abort (Composite Val)) ≠ Except.ok c) ∧
    (∀ h2 : n ≠ 2, (indirect_zip_fn_.tuple_value h2 its : Except Abort (∀ k, Val k))
      = Except.error Abort.expect_failed) ∧
    (∀ (It1 It2 Val1 Val2 : Type) (it1 : It1) (it2 : It2),
      (indirect_zip_fn_.pair_value it1 it2 : Except Abort (Val1 × Val2))
        = Except.error Abort.expect_failed) ∧
    (∀ k, (indirect_zip_fn_.reference deref its).slot k = deref k (its k)) ∧
    ∀ k, (indirect_zip_fn_.rvalue_reference iter_move its).slot k = iter_move k (its k) := by
  refine ⟨indirect_zip_fn_.value_eq its, ?_, fun _ => rfl, fun _ _ _ _ _ _ => rfl,
    indirect_zip_fn_.reference_slot deref its,
    indirect_zip_fn_.rvalue_reference_slot iter_move its⟩
  intro c hc
  rw [indirect_zip_fn_.value_eq] at hc
  cases hc

/-- C13, borrowing capability: the flag `enable_borrowed_range` of the zip view over
`n` inputs holds if and only if the flag of every input holds; it is the logical AND
of the flags of the inputs, and one input whose flag does not hold makes it false. -/
theorem zip_view_borrowed_iff {n : Nat} (enable_borrowed_range : Fin n → Bool) :
    (enable_borrowed_range_zip_view enable_borrowed_range = true
      ↔ ∀ k, enable_borrowed_range k = true) ∧
    enable_borrowed_range_zip_view enable_borrowed_range
      = (List.ofFn enable_borrowed_range).all id ∧
    ∀ k, enable_borrowed_range k = false →
      enable_borrowed_range_zip_view enable_borrowed_range = false := by
  have h1 : enable_borrowed_range_zip_view enable_borrowed_range = true
      ↔ ∀ k, enable_borrowed_range k = true := by
    unfold enable_borrowed_range_zip_view
    rw [and_v_eq_true_iff]
    simp [List.mem_ofFn]
  refine ⟨h1, and_v_eq_all _, ?_⟩
  intro k hk
  cases h : enable_borrowed_range_zip_view enable_borrowed_range with
  | false => rfl
  | true =>
    rw [h1.mp h k] at hk
    cases hk

/-- C17, the two-slot special case: on two iterators the pair overloads yield
`(*it1, *it2)` in reference mode and `(iter_move(it1), iter_move(it2))` in move mode,
slot for slot what the general `N`-slot return expressions yield on the same two
iterators; the call on two iterators returns the pair shape, the call on another
number of iterators the tuple shape with the same general expressions in its slots. -/
theorem pair_accessor_matches_tuple {It Ref RRef : Fin 2 → Type}
    (deref : ∀ k, It k → Ref k) (iter_move : ∀ k, It k → RRef k) (its : ∀ k, It k) :
    indirect_zip_fn_.pair_reference (deref 0) (deref 1) (its 0) (its 1)
      = (deref 0 (its 0), deref 1 (its 1)) ∧
    indirect_zip_fn_.pair_rvalue_reference (iter_move 0) (iter_move 1) (its 0) (its 1)
      = (iter_move 0 (its 0), iter_move 1 (its 1)) ∧
    indirect_zip_fn_.pair_reference (deref 0) (deref 1) (its 0) (its 1)
      = (indirect_zip_fn_.tuple_reference_slots deref its 0,
          indirect_zip_fn_.tuple_reference_slots deref its 1) ∧
    indirect_zip_fn_.pair_rvalue_reference (iter_move 0) (iter_move 1) (its 0) (its 1)
      = (indirect_zip_fn_.tuple_rvalue_reference_slots iter_move its 0,
          indirect_zip_fn_.tuple_rvalue_reference_slots iter_move its 1) ∧
    indirect_zip_fn_.reference deref its
      = Composite.pair rfl (deref 0 (its 0)) (deref 1 (its 1)) ∧
    indirect_zip_fn_.rvalue_reference iter_move its
      = Composite.pair rfl (iter_move 0 (its 0)) (iter_move 1 (its 1)) ∧
    (∀ k, (indirect_zip_fn_.reference deref its).slot k
      = indirect_zip_fn_.tuple_reference_slots deref its k) ∧
    (∀ k, (indirect_zip_fn_.rvalue_reference iter_move its).slot k
      = indirect_zip_fn_.tuple_rvalue_reference_slots iter_move its k) ∧
    (∀ (It1 It2 Ref1 Ref2 RRef1 RRef2 : Type) (deref1 : It1 → Ref1) (deref2 : It2 → Ref2)
      (iter_move1 : It1 → RRef1) (iter_move2 : It2 → RRef2) (c1 : It1) (c2 : It2),
      indirect_zip_fn_.pair_reference deref1 deref2 c1 c2 = (deref1 c1, deref2 c2) ∧
      indirect_zip_fn_.pair_rvalue_reference iter_move1 iter_move2 c1 c2
        = (iter_move1 c1, iter_move2 c2)) ∧
    ∀ (m : Nat) (h2 : m ≠ 2) (It' Ref' RRef' : Fin m → Type) (deref' : ∀ k, It' k → Ref' k)
      (iter_move' : ∀ k, It' k → RRef' k) (its' : ∀ k, It' k),
      indirect_zip_fn_.tuple_reference deref' h2 its'
        = indirect_zip_fn_.tuple_reference_slots deref' its' ∧
      indirect_zip_fn_.tuple_rvalue_reference iter_move' h2 its'
        = indirect_zip_fn_.tuple_rvalue_reference_slots iter_move' its' ∧
      indirect_zip_fn_.reference deref' its'
        = Composite.tuple h2 (indirect_zip_fn_.tuple_reference_slots deref' its') ∧
      indirect_zip_fn_.rvalue_reference iter_move' its'
        = Composite.tuple h2 (indirect_zip_fn_.tuple_rvalue_reference_slots iter_move' its') := by
  refine ⟨rfl, rfl, rfl, rfl, rfl, rfl, ?_, ?_, fun _ _ _ _ _ _ _ _ _ _ _ _ => ⟨rfl, rfl⟩, ?_⟩
  · intro k
    rw [indirect_zip_fn_.reference_slot]
    rfl
  · intro k
    rw [indirect_zip_fn_.rvalue_reference_slot]
    rfl
  · intro m h2 It' Ref' RRef' deref' iter_move' its'
    refine ⟨rfl, rfl, ?_, ?_⟩
    · simp only [indirect_zip_fn_.reference, dif_neg h2]
      rfl
    · simp only [indirect_zip_fn_.rvalue_reference, dif_neg h2]
      rfl

/-! ## The step rule of `merge` -/

theorem mergeLists_congr {α β κ₀ κ₁ : Type} (pred pred' : κ₁ → κ₀ → Bool) (proj0 : α → κ₀)
    (proj1 : β → κ₁) (A : List α) (B : List β)
    (h : ∀ a ∈ A, ∀ b ∈ B, pred' (proj1 b) (proj0 a) = pred (proj1 b) (proj0 a)) :
    mergeLists pred' proj0 proj1 A B = mergeLists pred proj0 proj1 A B := by
  induction A generalizing B with
  | nil => simp [mergeLists]
  | cons a A ihA =>
    induction B with
    | nil => simp [mergeLists]
    | cons b B ihB =>
      rw [mergeLists_cons_cons, mergeLists_cons_cons,
        h a (List.mem_cons_self _ _) b (List.mem_cons_self _ _),
        ihB (fun a' ha' b' hb' => h a' ha' b' (List.mem_cons_of_mem _ hb')),
        ihA (b :: B) (fun a' ha' b' hb' => h a' (List.mem_cons_of_mem _ ha') b' hb')]

/-- C16, merge step rule and tie-break: the cursor loop followed by the two copies
writes exactly what the two-list recursion `mergeLists` yields, whose equations are
those of the rule: an empty input leaves the other one, and on `a :: A'` and
`b :: B'` the element `b` comes first, followed by the merge of `a :: A'` and `B'`,
when `pred` holds of the key of `b` and the key of `a`, and otherwise, ties included,
`a` comes first, followed by the merge of `A'` and `b :: B'`.  The same rule holds of
the writes of `merge` itself, and `merge` depends on `pred` only through its values on
a key of an element of `B` in the first place and a key of an element of `A` in the
second. -/
theorem merge_step_rule {α β κ₀ κ₁ : Type} (pred : κ₁ → κ₀ → Bool) (proj0 : α → κ₀)
    (proj1 : β → κ₁) (A : List α) (B : List β) (a : α) (A' : List α) (b : β) (B' : List β)
    (start : Nat) :
    (∃ r, merge pred proj0 proj1 A B (Sink.fresh start) = some r ∧
      r.out.written = mergeLists pred proj0 proj1 A B) ∧
    mergeLists pred proj0 proj1 [] B = B.map Sum.inr ∧
    mergeLists pred proj0 proj1 A [] = A.map Sum.inl ∧
    mergeLists pred proj0 proj1 (a :: A') (b :: B')
      = (if pred (proj1 b) (proj0 a) then Sum.inr b :: mergeLists pred proj0 proj1 (a :: A') B'
        else Sum.inl a :: mergeLists pred proj0 proj1 A' (b :: B')) ∧
    (∃ r, merge pred proj0 proj1 (a :: A') (b :: B') (Sink.fresh start) = some r ∧
      (pred (proj1 b) (proj0 a) = true →
        ∃ r', merge pred proj0 proj1 (a :: A') B' (Sink.fresh (start + 1)) = some r' ∧
          r.out.log = (start, Sum.inr b) :: r'.out.log ∧
          r.out.written = Sum.inr b :: r'.out.written) ∧
      (pred (proj1 b) (proj0 a) = false →
        ∃ r', merge pred proj0 proj1 A' (b :: B') (Sink.fresh (start + 1)) = some r' ∧
          r.out.log = (start, Sum.inl a) :: r'.out.log ∧
          r.out.written = Sum.inl a :: r'.out.written)) ∧
    ∀ pred' : κ₁ → κ₀ → Bool,
      (∀ x ∈ A, ∀ y ∈ B, pred' (proj1 y) (proj0 x) = pred (proj1 y) (proj0 x)) →
      merge pred' proj0 proj1 A B (Sink.fresh start)
        = merge pred proj0 proj1 A B (Sink.fresh start) := by
  refine ⟨⟨_, merge_fresh pred proj0 proj1 A B start, ?_⟩, ?_, mergeLists_nil_right _ _ _ A,
    mergeLists_cons_cons _ _ _ a A' b B',
    ⟨_, merge_fresh pred proj0 proj1 (a :: A') (b :: B') start, ?_, ?_⟩, ?_⟩
  · simp [Sink.written]
  · simp [mergeLists]
  · intro hp
    refine ⟨_, merge_fresh pred proj0 proj1 (a :: A') B' (start + 1), ?_, ?_⟩
    · simp only [mergeLists_cons_cons, hp, if_true, List.enumFrom_cons]
    · simp only [Sink.written, mergeLists_cons_cons, hp, if_true, List.enumFrom_map_snd]
  · intro hp
    refine ⟨_, merge_fresh pred proj0 proj1 A' (b :: B') (start + 1), ?_, ?_⟩
    · simp only [mergeLists_cons_cons, hp, Bool.false_eq_true, if_false, List.enumFrom_cons]
    · simp only [Sink.written, mergeLists_cons_cons, hp, Bool.false_eq_true, if_false,
        List.enumFrom_map_snd]
  · intro pred' h
    rw [merge_fresh, merge_fresh, mergeLists_congr pred pred' proj0 proj1 A B h]

/-! ## Counting the steps of `merge` -/

theorem mergeLoopSteps_forget {α β κ₀ κ₁ : Type} (pred : κ₁ → κ₀ → Bool) (proj0 : α → κ₀)
    (proj1 : β → κ₁) (A : List α) (B : List β) (fuel : Nat) :
    ∀ (steps b0 b1 : Nat) (out : Sink (α ⊕ β)),
      (mergeLoopSteps pred proj0 proj1 A B fuel steps b0 b1 out).map (fun r => r.2)
        = mergeLoop pred proj0 proj1 A B fuel b0 b1 out := by
  induction fuel with
  | zero =>
    intro steps b0 b1 out
    simp only [mergeLoopSteps, mergeLoop]
    split <;> rfl
  | succ fuel ih =>
    intro steps b0 b1 out
    simp only [mergeLoopSteps, mergeLoop]
    split
    · split
      · split
        · exact ih _ _ _ _
        · exact ih _ _ _ _
      · rfl
    · rfl

theorem mergeLoopSteps_count {α β κ₀ κ₁ : Type} (pred : κ₁ → κ₀ → Bool) (proj0 : α → κ₀)
    (proj1 : β → κ₁) (A : List α) (B : List β) (fuel : Nat) :
    ∀ (steps b0 b1 : Nat) (out : Sink (α ⊕ β)) (k b0' b1' : Nat) (o' : Sink (α ⊕ β)),
      mergeLoopSteps pred proj0 proj1 A B fuel steps b0 b1 out = some (k, b0', b1', o') →
      b0 ≤ b0' ∧ b1 ≤ b1' ∧ k = steps + ((b0' - b0) + (b1' - b1)) ∧
        o'.pos = out.pos + (k - steps) ∧ o'.log.length = out.log.length + (k - steps) := by
  induction fuel with
  | zero =>
    intro steps b0 b1 out k b0' b1' o' h
    simp only [mergeLoopSteps] at h
    split at h
    · cases h
    · cases h
      simp
  | succ fuel ih =>
    intro steps b0 b1 out k b0' b1' o' h
    simp only [mergeLoopSteps] at h
    split at h
    · split at h
      · split at h
        · obtain ⟨h1, h2, h3, h4, h5⟩ := ih _ _ _ _ _ _ _ _ h
          simp only [Sink.assign, Sink.next, List.length_append, List.length_singleton]
            at h4 h5
          refine ⟨h1, by omega, by omega, by omega, by omega⟩
        · obtain ⟨h1, h2, h3, h4, h5⟩ := ih _ _ _ _ _ _ _ _ h
          simp only [Sink.assign, Sink.next, List.length_append, List.length_singleton]
            at h4 h5
          refine ⟨by omega, h2, by omega, by omega, by omega⟩
      · cases h
    · cases h
      simp

theorem copy_steps {α γ : Type} (w : α → γ) (xs : List α) (first : Nat) (out : Sink γ) :
    (copy w xs first xs.length out).2.pos = out.pos + (xs.length - first) ∧
      (copy w xs first xs.length out).2.log.length = out.log.length + (xs.length - first) := by
  rw [copy_eq, Sink.writeAll_eq]
  simp

/-- C14, merge termination: for any inputs and any predicate `merge` returns, its
loop within the `A.length + B.length` iterations it is given; the number of
iterations of the loop plus the numbers of elements the two copies write is
`A.length + B.length`; and every iteration of the loop advances the count of steps by
one, exactly one of the two input cursors by one and the sink by one write and one
position. -/
theorem merge_termination {α β κ₀ κ₁ : Type} (pred : κ₁ → κ₀ → Bool) (proj0 : α → κ₀)
    (proj1 : β → κ₁) (A : List α) (B : List β) (start : Nat) :
    (∃ k b0 b1 o r,
      mergeLoopSteps pred proj0 proj1 A B (A.length + B.length) 0 0 0 (Sink.fresh start)
        = some (k, b0, b1, o) ∧
      mergeLoop pred proj0 proj1 A B (A.length + B.length) 0 0 (Sink.fresh start)
        = some (b0, b1, o) ∧
      merge pred proj0 proj1 A B (Sink.fresh start) = some r ∧
      r.out = (copy Sum.inr B b1 B.length (copy Sum.inl A b0 A.length o).2).2 ∧
      k = b0 + b1 ∧ o.pos = start + k ∧ o.log.length = k ∧
      (copy Sum.inl A b0 A.length o).2.log.length = k + (A.length - b0) ∧
      r.out.log.length = k + (A.length - b0) + (B.length - b1) ∧
      k + (A.length - b0) + (B.length - b1) = A.length + B.length) ∧
    ∀ (fuel steps b0 b1 : Nat) (out : Sink (α ⊕ β)), b0 < A.length → b1 < B.length →
      ∃ x y, A[b0]? = some x ∧ B[b1]? = some y ∧
        (mergeLoopSteps pred proj0 proj1 A B (fuel + 1) steps b0 b1 out
            = mergeLoopSteps pred proj0 proj1 A B fuel (steps + 1) b0 (b1 + 1)
                ((out.assign (Sum.inr y)).next) ∨
          mergeLoopSteps pred proj0 proj1 A B (fuel + 1) steps b0 b1 out
            = mergeLoopSteps pred proj0 proj1 A B fuel (steps + 1) (b0 + 1) b1
                ((out.assign (Sum.inl x)).next)) ∧
        ∀ z : α ⊕ β, ((out.assign z).next).pos = out.pos + 1 ∧
          ((out.assign z).next).log = out.log ++ [(out.pos, z)] := by
  constructor
  · obtain ⟨b0, b1, o, hloop, hb0, hb1, _, _⟩ :=
      mergeLoop_spec pred proj0 proj1 A B (A.length + B.length) 0 0 (Sink.fresh start)
        (Nat.zero_le _) (Nat.zero_le _) (by omega)
    have hforget := mergeLoopSteps_forget pred proj0 proj1 A B (A.length + B.length) 0 0 0
      (Sink.fresh start)
    rw [hloop] at hforget
    obtain ⟨⟨k, c0, c1, o'⟩, hsteps, hproj⟩ := Option.map_eq_some'.mp hforget
    simp only [Prod.mk.injEq] at hproj
    obtain ⟨rfl, rfl, rfl⟩ := hproj
    obtain ⟨_, _, hk, hpos, hlen⟩ :=
      mergeLoopSteps_count pred proj0 proj1 A B _ _ _ _ _ _ _ _ _ hsteps
    simp only [Sink.fresh, List.length_nil, Nat.zero_add, Nat.sub_zero] at hk hpos hlen
    have hc0 := copy_steps (Sum.inl : α → α ⊕ β) A c0 o'
    have hc1 := copy_steps (Sum.inr : β → α ⊕ β) B c1 (copy Sum.inl A c0 A.length o').2
    refine ⟨k, c0, c1, o',
      ⟨A.length, B.length, (copy Sum.inr B c1 B.length (copy Sum.inl A c0 A.length o').2).2⟩,
      hsteps, hloop, ?_, rfl, hk, hpos, hlen, ?_, ?_, ?_⟩
    · simp only [merge, mergeFrom, hloop]
      rfl
    · omega
    · simp only
      omega
    · omega
  · intro fuel steps b0 b1 out h0 h1
    refine ⟨A[b0], B[b1], List.getElem?_eq_getElem h0, List.getElem?_eq_getElem h1, ?_,
      fun z => ⟨rfl, rfl⟩⟩
    have hc0 : b0 ≠ A.length := by omega
    have hc1 : b1 ≠ B.length := by omega
    by_cases hp : pred (proj1 B[b1]) (proj0 A[b0]) = true
    · left
      simp [mergeLoopSteps, hc0, hc1, List.getElem?_eq_getElem h0,
        List.getElem?_eq_getElem h1, hp]
    · right
      simp [mergeLoopSteps, hc0, hc1, List.getElem?_eq_getElem h0,
        List.getElem?_eq_getElem h1, hp]

/-! ## The dereferences of `merge` -/

theorem mergeLoopTrace_forget {α β κ₀ κ₁ : Type} (pred : κ₁ → κ₀ → Bool) (proj0 : α → κ₀)
    (proj1 : β → κ₁) (A : List α) (B : List β) (fuel : Nat) :
    ∀ (b0 b1 : Nat) (tr : List Deref) (out : Sink (α ⊕ β)),
      (mergeLoopTrace pred proj0 proj1 A B fuel b0 b1 tr).map (fun r => (r.1, r.2.1))
        = (mergeLoop pred proj0 proj1 A B fuel b0 b1 out).map (fun r => (r.1, r.2.1)) := by
  induction fuel with
  | zero =>
    intro b0 b1 tr out
    simp only [mergeLoopTrace, mergeLoop]
    split <;> rfl
  | succ fuel ih =>
    intro b0 b1 tr out
    simp only [mergeLoopTrace, mergeLoop]
    split
    · split
      · split
        · exact ih _ _ _ _
        · exact ih _ _ _ _
      · rfl
    · rfl

theorem mergeLoopTrace_spec {α β κ₀ κ₁ : Type} (pred : κ₁ → κ₀ → Bool) (proj0 : α → κ₀)
    (proj1 : β → κ₁) (A : List α) (B : List β) (fuel : Nat) :
    ∀ (b0 b1 : Nat) (tr : List Deref), b0 ≤ A.length → b1 ≤ B.length →
      (A.length - b0) + (B.length - b1) ≤ fuel →
      (∀ e ∈ tr, (e.second = false → e.pos < A.length) ∧ (e.second = true → e.pos < B.length)) →
      tr.Pairwise (fun e1 e2 => e1.forWrite = true → e1.second = e2.second → e1.pos < e2.pos) →
      (∀ e ∈ tr, e.forWrite = true →
        (e.second = false → e.pos < b0) ∧ (e.second = true → e.pos < b1)) →
      ∃ b0' b1' tr', mergeLoopTrace pred proj0 proj1 A B fuel b0 b1 tr = some (b0', b1', tr') ∧
        b0' ≤ A.length ∧ b1' ≤ B.length ∧
        (∀ e ∈ tr', (e.second = false → e.pos < A.length) ∧
          (e.second = true → e.pos < B.length)) ∧
        tr'.Pairwise
          (fun e1 e2 => e1.forWrite = true → e1.second = e2.second → e1.pos < e2.pos) ∧
        (∀ e ∈ tr', e.forWrite = true →
          (e.second = false → e.pos < b0') ∧ (e.second = true → e.pos < b1')) := by
  induction fuel with
  | zero =>
    intro b0 b1 tr h0 h1 hf hr hp hb
    have hc : ¬ (b0 ≠ A.length ∧ b1 ≠ B.length) := by omega
    exact ⟨b0, b1, tr, by simp only [mergeLoopTrace, if_neg hc], h0, h1, hr, hp, hb⟩
  | succ fuel ih =>
    intro b0 b1 tr h0 h1 hf hr hp hb
    by_cases hc : b0 ≠ A.length ∧ b1 ≠ B.length
    · obtain ⟨hc0, hc1⟩ := hc
      have hl0 : b0 < A.length := by omega
      have hl1 : b1 < B.length := by omega
      by_cases hpred : pred (proj1 B[b1]) (proj0 A[b0]) = true
      · obtain ⟨b0', b1', tr', h⟩ := ih b0 (b1 + 1)
          (tr ++ [⟨true, b1, false⟩, ⟨false, b0, false⟩, ⟨true, b1, true⟩]) h0 (by omega)
          (by omega)
          (by
            intro e he
            simp only [List.mem_append, List.mem_cons, List.mem_singleton,
              List.not_mem_nil, or_false] at he
            rcases he with he | rfl | rfl | rfl
            · exact hr e he
            · simp; omega
            · simp; omega
            · simp; omega)
          (by
            rw [List.pairwise_append]
            refine ⟨hp, by simp, ?_⟩
            intro a ha b hb'
            simp only [List.mem_cons, List.mem_singleton, List.not_mem_nil, or_false] at hb'
            intro hw hs
            have := hb a ha hw
            rcases hb' with rfl | rfl | rfl
            · have := this.2 (by simpa using hs); simp; omega
            · have := this.1 (by simpa using hs); simp; omega
            · have := this.2 (by simpa using hs); simp; omega)
          (by
            intro e he hw
            simp only [List.mem_append, List.mem_cons, List.mem_singleton,
              List.not_mem_nil, or_false] at he
            rcases he with he | rfl | rfl | rfl
            · have := hb e he hw
              exact ⟨this.1, fun hs => by have := this.2 hs; omega⟩
            · simp at hw
            · simp at hw
            · simp)
        refine ⟨b0', b1', tr', ?_⟩
        simpa [mergeLoopTrace, hc0, hc1, List.getElem?_eq_getElem hl0,
          List.getElem?_eq_getElem hl1, hpred] using h
      · obtain ⟨b0', b1', tr', h⟩ := ih (b0 + 1) b1
          (tr ++ [⟨true, b1, false⟩, ⟨false, b0, false⟩, ⟨false, b0, true⟩]) (by omega) h1
          (by omega)
          (by
            intro e he
            simp only [List.mem_append, List.mem_cons, List.mem_singleton,
              List.not_mem_nil, or_false] at he
            rcases he with he | rfl | rfl | rfl
            · exact hr e he
            · simp; omega
            · simp; omega
            · simp; omega)
          (by
            rw [List.pairwise_append]
            refine ⟨hp, by simp, ?_⟩
            intro a ha b hb'
            simp only [List.mem_cons, List.mem_singleton, List.not_mem_nil, or_false] at hb'
            intro hw hs
            have := hb a ha hw
            rcases hb' with rfl | rfl | rfl
            · have := this.2 (by simpa using hs); simp; omega
            · have := this.1 (by simpa using hs); simp; omega
            · have := this.1 (by simpa using hs); simp; omega)
          (by
            intro e he hw
            simp only [List.mem_append, List.mem_cons, List.mem_singleton,
              List.not_mem_nil, or_false] at he
            rcases he with he | rfl | rfl | rfl
            · have := hb e he hw
              exact ⟨fun hs => by have := this.1 hs; omega, this.2⟩
            · simp at hw
            · simp at hw
            · simp)
        refine ⟨b0', b1', tr', ?_⟩
        simpa [mergeLoopTrace, hc0, hc1, List.getElem?_eq_getElem hl0,
          List.getElem?_eq_getElem hl1, hpred] using h
    · exact ⟨b0, b1, tr, by simp only [mergeLoopTrace, if_neg hc], h0, h1, hr, hp, hb⟩

theorem mem_copyTrace (second : Bool) (first last : Nat) (e : Deref) :
    e ∈ copyTrace second first last
      ↔ e.second = second ∧ e.forWrite = true ∧ first ≤ e.pos ∧ e.pos < last := by
  unfold copyTrace
  simp only [List.mem_map, List.mem_range'_1]
  constructor
  · rintro ⟨i, ⟨h1, h2⟩, rfl⟩
    exact ⟨rfl, rfl, h1, by simp only; omega⟩
  · rintro ⟨h1, h2, h3, h4⟩
    refine ⟨e.pos, ⟨h3, by omega⟩, ?_⟩
    cases e
    simp_all

theorem pairwise_copyTrace (second : Bool) (first last : Nat) :
    (copyTrace second first last).Pairwise
      (fun e1 e2 => e1.forWrite = true → e1.second = e2.second → e1.pos < e2.pos) := by
  unfold copyTrace
  rw [List.pairwise_map]
  exact (List.pairwise_lt_range' first (last - first)).imp (fun h _ _ => h)

/-- The dereferences of `merge` on `A = [1, 3]` and `B = [2]` with the defaults: the
loop compares `2` with `1` and writes `1`, compares `2` with `3` and writes `2`; the
first copy reads `3`; the second copy reads nothing. -/
theorem mergeTrace_example :
    mergeTrace ordered_less ident ident [1, 3] [2]
      = some [⟨true, 0, false⟩, ⟨false, 0, false⟩, ⟨false, 0, true⟩,
          ⟨true, 0, false⟩, ⟨false, 1, false⟩, ⟨true, 0, true⟩,
          ⟨false, 1, true⟩] := by
  decide

/-- C15, merge never reads past a terminator: with cursors as indices and reads that
fail on a position holding no element, for any inputs and any predicate `merge`
returns a result, so no read of it fails; every dereference it makes of the first
cursor is at a position before `A.length` and every dereference of the second at a
position before `B.length`; and after a dereference made for a write, every later
dereference of the same input is at a greater position.  The recorded run visits the
same cursor positions as the loop of `merge`. -/
theorem merge_reads_in_range {α β κ₀ κ₁ : Type} (pred : κ₁ → κ₀ → Bool) (proj0 : α → κ₀)
    (proj1 : β → κ₁) (A : List α) (B : List β) (start : Nat) :
    (∃ r, merge pred proj0 proj1 A B (Sink.fresh start) = some r) ∧
    (∃ tr, mergeTrace pred proj0 proj1 A B = some tr ∧
      (∀ e ∈ tr, (e.second = false → e.pos < A.length) ∧
        (e.second = true → e.pos < B.length)) ∧
      tr.Pairwise
        (fun e1 e2 => e1.forWrite = true → e1.second = e2.second → e1.pos < e2.pos)) ∧
    (mergeLoopTrace pred proj0 proj1 A B (A.length + B.length) 0 0 []).map
        (fun r => (r.1, r.2.1))
      = (mergeLoop pred proj0 proj1 A B (A.length + B.length) 0 0 (Sink.fresh start)).map
        (fun r => (r.1, r.2.1)) := by
  refine ⟨⟨_, merge_fresh pred proj0 proj1 A B start⟩, ?_,
    mergeLoopTrace_forget pred proj0 proj1 A B _ 0 0 [] _⟩
  obtain ⟨b0, b1, tr, hloop, h0, h1, hr, hp, hb⟩ :=
    mergeLoopTrace_spec pred proj0 proj1 A B (A.length + B.length) 0 0 []
      (Nat.zero_le _) (Nat.zero_le _) (by omega) (by simp) List.Pairwise.nil (by simp)
  refine ⟨tr ++ copyTrace false b0 A.length ++ copyTrace true b1 B.length, ?_, ?_, ?_⟩
  · simp only [mergeTrace, hloop]
  · intro e he
    simp only [List.mem_append, mem_copyTrace] at he
    rcases he with (he | ⟨hs, _, _, hlt⟩) | ⟨hs, _, _, hlt⟩
    · exact hr e he
    · exact ⟨fun _ => hlt, fun h => by rw [hs] at h; cases h⟩
    · exact ⟨fun h => (by rw [hs] at h; cases h), fun _ => hlt⟩
  · rw [List.pairwise_append, List.pairwise_append]
    refine ⟨⟨hp, pairwise_copyTrace _ _ _, ?_⟩, pairwise_copyTrace _ _ _, ?_⟩
    · intro a ha b hb' hw hs
      rw [mem_copyTrace] at hb'
      obtain ⟨hs', _, hge, _⟩ := hb'
      have := (hb a ha hw).1 (by rw [hs, hs'])
      omega
    · intro a ha b hb' hw hs
      rw [mem_copyTrace] at hb'
      obtain ⟨hs', _, hge, _⟩ := hb'
      simp only [List.mem_append, mem_copyTrace] at ha
      rcases ha with ha | ⟨hsa, _, _, _⟩
      · have := (hb a ha hw).2 (by rw [hs, hs'])
        omega
      · rw [hsa, hs'] at hs
        cases hs

/-! ## `merge` and the stable sort -/

theorem mergeValues_nil_left {α κ : Type} (less : κ → κ → Bool) (proj : α → κ) (B : List α) :
    mergeValues less proj [] B = B := by
  simp [mergeValues, mergeLists]

theorem mergeValues_nil_right {α κ : Type} (less : κ → κ → Bool) (proj : α → κ) (A : List α) :
    mergeValues less proj A [] = A := by
  simp [mergeValues, mergeLists_nil_right]

theorem mergeValues_cons_cons {α κ : Type} (less : κ → κ → Bool) (proj : α → κ) (a : α)
    (A : List α) (b : α) (B : List α) :
    mergeValues less proj (a :: A) (b :: B)
      = if less (proj b) (proj a) then b :: mergeValues less proj (a :: A) B
        else a :: mergeValues less proj A (b :: B) := by
  simp only [mergeValues, mergeLists_cons_cons]
  split <;> rfl

theorem mergeOutput_eq {α κ : Type} (less : κ → κ → Bool) (proj : α → κ) (A B : List α) :
    mergeOutput less proj proj A B = some (mergeValues less proj A B) := by
  simp only [mergeOutput, merge_fresh, Option.map_some', Sink.written,
    List.enumFrom_map_snd, mergeValues]

theorem mergeValues_perm {α κ : Type} (less : κ → κ → Bool) (proj : α → κ) (A B : List α) :
    (mergeValues less proj A B).Perm (A ++ B) := by
  have := (mergeLists_perm less proj proj A B).map (Sum.elim id id)
  simpa [mergeValues] using this

theorem mergeValues_nonDescending {α κ : Type} (less : κ → κ → Bool)
    (hless : StrictWeakOrder less) (proj : α → κ) (A B : List α)
    (hA : NonDescending less proj A) (hB : NonDescending less proj B) :
    NonDescending less proj (mergeValues less proj A B) := by
  have h := mergeLists_nonDescending less hless proj proj A B hA hB
  unfold NonDescending at h ⊢
  rw [mergeValues, List.chain'_map]
  refine h.imp ?_
  intro x y hxy
  cases x <;> cases y <;> exact hxy

theorem equivalent_self {κ : Type} {less : κ → κ → Bool} (hless : StrictWeakOrder less)
    (x : κ) : equivalent less x x = true := by
  simp [equivalent, hless.irrefl]

theorem equivalent_iff {κ : Type} (less : κ → κ → Bool) (x y : κ) :
    equivalent less x y = true ↔ less x y = false ∧ less y x = false := by
  simp [equivalent]

theorem mergeValues_filter {α κ : Type} (less : κ → κ → Bool) (hless : StrictWeakOrder less)
    (proj : α → κ) (A B : List α) (hA : NonDescending less proj A) (k : κ) :
    (mergeValues less proj A B).filter (fun y => equivalent less k (proj y))
      = A.filter (fun y => equivalent less k (proj y))
        ++ B.filter (fun y => equivalent less k (proj y)) := by
  have hA' := hA.pairwise hless
  clear hA
  induction A generalizing B with
  | nil => simp [mergeValues_nil_left]
  | cons a A ihA =>
    induction B with
    | nil => simp [mergeValues_nil_right]
    | cons b B ihB =>
      rw [mergeValues_cons_cons]
      by_cases hp : less (proj b) (proj a) = true
      · rw [if_pos hp, List.filter_cons, ihB]
        by_cases hk : equivalent less k (proj b) = true
        · have hnone : (a :: A).filter (fun y => equivalent less k (proj y)) = [] := by
            rw [List.filter_eq_nil_iff]
            intro a' ha' hka'
            have hba' : less (proj b) (proj a') = true := by
              rcases List.mem_cons.mp ha' with rfl | hmem
              · exact hp
              · have h1 : less (proj a') (proj a) = false :=
                  (List.pairwise_cons.mp hA').1 a' hmem
                rcases hless.neg_trans (y := proj a') hp with h2 | h2
                · exact h2
                · rw [h2] at h1; exact absurd h1 (by decide)
            rw [equivalent_iff] at hk hka'
            have := (hless.incomp_trans (proj b) k (proj a') hk.2 hk.1 hka'.1 hka'.2).1
            rw [hba'] at this
            exact absurd this (by decide)
          rw [if_pos hk, hnone, List.filter_cons, if_pos hk]
          rfl
        · rw [if_neg hk]
          congr 1
          rw [List.filter_cons, if_neg hk]
      · rw [if_neg hp, List.filter_cons, ihA (b :: B) (List.pairwise_cons.mp hA').2]
        by_cases hka : equivalent less k (proj a) = true
        · simp [List.filter_cons, hka]
        · simp [List.filter_cons, hka]

theorem sorted_stable_unique {α κ : Type} (less : κ → κ → Bool) (hless : StrictWeakOrder less)
    (proj : α → κ) (L₁ : List α) :
    ∀ L₂ : List α, L₁.Pairwise (fun x y => less (proj y) (proj x) = false) →
      L₂.Pairwise (fun x y => less (proj y) (proj x) = false) →
      (∀ x : α, L₁.filter (fun y => equivalent less (proj x) (proj y))
        = L₂.filter (fun y => equivalent less (proj x) (proj y))) →
      L₁ = L₂ := by
  induction L₁ with
  | nil =>
    intro L₂ _ _ hf
    cases L₂ with
    | nil => rfl
    | cons h' t' =>
      have := hf h'
      simp [List.filter_cons, equivalent_self hless] at this
  | cons h t ih =>
    intro L₂ h1 h2 hf
    cases L₂ with
    | nil =>
      have := hf h
      simp [List.filter_cons, equivalent_self hless] at this
    | cons h' t' =>
      have hmem : h ∈ h' :: t' := by
        have hh : h ∈ (h :: t).filter (fun y => equivalent less (proj h) (proj y)) := by
          simp [List.filter_cons, equivalent_self hless]
        rw [hf h] at hh
        exact (List.mem_filter.mp hh).1
      have hmem' : h' ∈ h :: t := by
        have hh : h' ∈ (h' :: t').filter (fun y => equivalent less (proj h') (proj y)) := by
          simp [List.filter_cons, equivalent_self hless]
        rw [← hf h'] at hh
        exact (List.mem_filter.mp hh).1
      have hle : less (proj h) (proj h') = false := by
        rcases List.mem_cons.mp hmem with rfl | hm
        · exact hless.irrefl _
        · exact (List.pairwise_cons.mp h2).1 h hm
      have hle' : less (proj h') (proj h) = false := by
        rcases List.mem_cons.mp hmem' with rfl | hm
        · exact hless.irrefl _
        · exact (List.pairwise_cons.mp h1).1 h' hm
      have heq : equivalent less (proj h) (proj h') = true :=
        (equivalent_iff less _ _).mpr ⟨hle, hle'⟩
      have hhead := hf h
      simp only [List.filter_cons, equivalent_self hless, heq, if_true, List.cons.injEq]
        at hhead
      obtain ⟨rfl, _⟩ := hhead
      congr 1
      apply ih t' (List.pairwise_cons.mp h1).2 (List.pairwise_cons.mp h2).2
      intro x
      have hx := hf x
      by_cases hxh : equivalent less (proj x) (proj h) = true
      · simp only [List.filter_cons, hxh, if_true, List.cons.injEq, true_and] at hx
        exact hx
      · simp only [List.filter_cons, hxh] at hx
        exact hx

theorem mergeValues_cons_right_of_less {α κ : Type} (less : κ → κ → Bool) (proj : α → κ)
    (A : List α) (b : α) (B : List α) (h : ∀ a ∈ A, less (proj b) (proj a) = true) :
    mergeValues less proj A (b :: B) = b :: mergeValues less proj A B := by
  cases A with
  | nil => simp [mergeValues_nil_left]
  | cons a A => rw [mergeValues_cons_cons, if_pos (h a (List.mem_cons_self _ _))]

theorem orderedInsert_mergeValues {α κ : Type} (less : κ → κ → Bool)
    (hless : StrictWeakOrder less) (proj : α → κ) (a : α) (A B : List α)
    (hA : ∀ a' ∈ A, less (proj a') (proj a) = false) :
    List.orderedInsert (fun x y => less (proj y) (proj x) = false) a (mergeValues less proj A B)
      = mergeValues less proj (a :: A) B := by
  induction B with
  | nil =>
    rw [mergeValues_nil_right, mergeValues_nil_right]
    cases A with
    | nil => rfl
    | cons a' A => exact List.orderedInsert_of_le _ _ (hA a' (List.mem_cons_self _ _))
  | cons b B ih =>
    rw [mergeValues_cons_cons]
    by_cases hp : less (proj b) (proj a) = true
    · rw [if_pos hp, ← ih]
      have hall : ∀ a' ∈ A, less (proj b) (proj a') = true := by
        intro a' ha'
        rcases hless.neg_trans (y := proj a') hp with h2 | h2
        · exact h2
        · rw [hA a' ha'] at h2; exact absurd h2 (by decide)
      rw [mergeValues_cons_right_of_less less proj A b B hall]
      simp only [List.orderedInsert, hp, Bool.true_eq_false, if_false]
    · rw [if_neg hp]
      have hp' : less (proj b) (proj a) = false := by simpa using hp
      cases A with
      | nil =>
        rw [mergeValues_nil_left]
        exact List.orderedInsert_of_le _ _ hp'
      | cons a' A =>
        rw [mergeValues_cons_cons]
        split
        · exact List.orderedInsert_of_le _ _ hp'
        · exact List.orderedInsert_of_le _ _ (hA a' (List.mem_cons_self _ _))

theorem mergeValues_eq_stableSort {α κ : Type} (less : κ → κ → Bool)
    (hless : StrictWeakOrder less) (proj : α → κ) (A B : List α)
    (hA : NonDescending less proj A) (hB : NonDescending less proj B) :
    mergeValues less proj A B = stableSort less proj (A ++ B) := by
  have hA' := hA.pairwise hless
  clear hA
  induction A with
  | nil =>
    rw [mergeValues_nil_left, List.nil_append, stableSort]
    exact (List.Sorted.insertionSort_eq (hB.pairwise hless)).symm
  | cons a A ih =>
    rw [stableSort, List.cons_append, List.insertionSort]
    have := ih (List.pairwise_cons.mp hA').2
    rw [stableSort] at this
    rw [← this]
    exact (orderedInsert_mergeValues less hless proj a A B (List.pairwise_cons.mp hA').1).symm

theorem mergeValues_assoc {α κ : Type} (less : κ → κ → Bool) (hless : StrictWeakOrder less)
    (proj : α → κ) (A B C : List α) (hA : NonDescending less proj A)
    (hB : NonDescending less proj B) (hC : NonDescending less proj C) :
    mergeValues less proj (mergeValues less proj A B) C
      = mergeValues less proj A (mergeValues less proj B C) := by
  have hAB := mergeValues_nonDescending less hless proj A B hA hB
  have hBC := mergeValues_nonDescending less hless proj B C hB hC
  apply sorted_stable_unique less hless proj
  · exact (mergeValues_nonDescending less hless proj _ C hAB hC).pairwise hless
  · exact (mergeValues_nonDescending less hless proj A _ hA hBC).pairwise hless
  · intro x
    rw [mergeValues_filter less hless proj _ C hAB, mergeValues_filter less hless proj A B hA,
      mergeValues_filter less hless proj A _ hA, mergeValues_filter less hless proj B C hB,
      List.append_assoc]

/-- The stable sort and the merges of `[(1, "a"), (2, "a")]`, `[(1, "b")]` and
`[(1, "c"), (3, "c")]`, compared on the first component. -/
theorem stableSort_example :
    stableSort ordered_less Prod.fst ([(1, "a"), (2, "a")] ++ [(1, "b")])
      = [(1, "a"), (1, "b"), (2, "a")] ∧
    mergeOutput ordered_less Prod.fst Prod.fst [(1, "a"), (2, "a")] [(1, "b")]
      = some [(1, "a"), (1, "b"), (2, "a")] ∧
    mergeOutput ordered_less Prod.fst Prod.fst [(1, "a"), (1, "b"), (2, "a")]
        [(1, "c"), (3, "c")]
      = some [(1, "a"), (1, "b"), (1, "c"), (2, "a"), (3, "c")] ∧
    mergeOutput ordered_less Prod.fst Prod.fst [(1, "b")] [(1, "c"), (3, "c")]
      = some [(1, "b"), (1, "c"), (3, "c")] ∧
    mergeOutput ordered_less Prod.fst Prod.fst [(1, "a"), (2, "a")]
        [(1, "b"), (1, "c"), (3, "c")]
      = some [(1, "a"), (1, "b"), (1, "c"), (2, "a"), (3, "c")] := by
  decide

/-- C18, merge equals the stable sort of the concatenation: when `less` is a strict
weak order, one projection serves both inputs and `A` and `B` are non-descending,
the output of `merge A B` is the stable sort of `A ++ B`; that sort is non-descending,
a permutation of `A ++ B`, keeps the elements of every class of equivalent keys in
their order in `A ++ B`, and is the only list with these three properties; and with
`C` non-descending as well, merging the output of `merge A B` with `C` gives the same
output as merging `A` with the output of `merge B C`. -/
theorem merge_eq_stable_sort {α κ : Type} (less : κ → κ → Bool) (proj : α → κ)
    (A B C : List α) (hless : StrictWeakOrder less) (hA : NonDescending less proj A)
    (hB : NonDescending less proj B) (hC : NonDescending less proj C) :
    mergeOutput less proj proj A B = some (stableSort less proj (A ++ B)) ∧
    NonDescending less proj (stableSort less proj (A ++ B)) ∧
    List.Perm (stableSort less proj (A ++ B)) (A ++ B) ∧
    (∀ k : κ, (stableSort less proj (A ++ B)).filter (fun y => equivalent less k (proj y))
      = (A ++ B).filter (fun y => equivalent less k (proj y))) ∧
    (∀ L : List α, NonDescending less proj L → List.Perm L (A ++ B) →
      (∀ x : α, L.filter (fun y => equivalent less (proj x) (proj y))
        = (A ++ B).filter (fun y => equivalent less (proj x) (proj y))) →
      L = stableSort less proj (A ++ B)) ∧
    ∃ AB BC L, mergeOutput less proj proj A B = some AB ∧
      mergeOutput less proj proj B C = some BC ∧
      mergeOutput less proj proj AB C = some L ∧
      mergeOutput less proj proj A BC = some L := by
  have heq := mergeValues_eq_stableSort less hless proj A B hA hB
  have hsorted := mergeValues_nonDescending less hless proj A B hA hB
  rw [heq] at hsorted
  refine ⟨by rw [mergeOutput_eq, heq], hsorted, ?_, ?_, ?_, ?_⟩
  · rw [← heq]
    exact mergeValues_perm less proj A B
  · intro k
    rw [← heq, mergeValues_filter less hless proj A B hA, List.filter_append]
  · intro L hL _ hf
    apply sorted_stable_unique less hless proj L _ (hL.pairwise hless)
      (hsorted.pairwise hless)
    intro x
    rw [hf x, ← heq, mergeValues_filter less hless proj A B hA, List.filter_append]
  · exact ⟨_, _, _, mergeOutput_eq less proj A B, mergeOutput_eq less proj B C,
      mergeOutput_eq less proj _ C,
      by rw [mergeOutput_eq, mergeValues_assoc less hless proj A B C hA hB hC]⟩

/-- Witness of C18 at `A = [(1, "a"), (2, "a")]`, `B = [(1, "b")]` and
`C = [(1, "c"), (3, "c")]`, compared on the first component. -/
theorem merge_eq_stable_sort_witness :
    StrictWeakOrder ordered_less ∧
    NonDescending ordered_less Prod.fst [(1, "a"), (2, "a")] ∧
    NonDescending ordered_less Prod.fst [(1, "b")] ∧
    NonDescending ordered_less Prod.fst [(1, "c"), (3, "c")] ∧
    (mergeOutput ordered_less Prod.fst Prod.fst [(1, "a"), (2, "a")] [(1, "b")]
      = some (stableSort ordered_less Prod.fst ([(1, "a"), (2, "a")] ++ [(1, "b")])) ∧
    NonDescending ordered_less Prod.fst
      (stableSort ordered_less Prod.fst ([(1, "a"), (2, "a")] ++ [(1, "b")])) ∧
    List.Perm (stableSort ordered_less Prod.fst ([(1, "a"), (2, "a")] ++ [(1, "b")]))
      ([(1, "a"), (2, "a")] ++ [(1, "b")]) ∧
    (∀ k : Nat,
      (stableSort ordered_less Prod.fst ([(1, "a"), (2, "a")] ++ [(1, "b")])).filter
          (fun y => equivalent ordered_less k (Prod.fst y))
        = ([(1, "a"), (2, "a")] ++ [(1, "b")]).filter
          (fun y => equivalent ordered_less k (Prod.fst y))) ∧
    (∀ L : List (Nat × String), NonDescending ordered_less Prod.fst L →
      List.Perm L ([(1, "a"), (2, "a")] ++ [(1, "b")]) →
      (∀ x : Nat × String,
        L.filter (fun y => equivalent ordered_less (Prod.fst x) (Prod.fst y))
          = ([(1, "a"), (2, "a")] ++ [(1, "b")]).filter
            (fun y => equivalent ordered_less (Prod.fst x) (Prod.fst y))) →
      L = stableSort ordered_less Prod.fst ([(1, "a"), (2, "a")] ++ [(1, "b")])) ∧
    ∃ AB BC L,
      mergeOutput ordered_less Prod.fst Prod.fst [(1, "a"), (2, "a")] [(1, "b")] = some AB ∧
      mergeOutput ordered_less Prod.fst Prod.fst [(1, "b")] [(1, "c"), (3, "c")] = some BC ∧
      mergeOutput ordered_less Prod.fst Prod.fst AB [(1, "c"), (3, "c")] = some L ∧
      mergeOutput ordered_less Prod.fst Prod.fst [(1, "a"), (2, "a")] BC = some L) :=
  ⟨strictWeakOrder_ordered_less, by simp [NonDescending, ordered_less],
    by simp [NonDescending], by simp [NonDescending, ordered_less],
    merge_eq_stable_sort ordered_less Prod.fst [(1, "a"), (2, "a")] [(1, "b")]
      [(1, "c"), (3, "c")] strictWeakOrder_ordered_less
      (by simp [NonDescending, ordered_less]) (by simp [NonDescending])
      (by simp [NonDescending, ordered_less])⟩

end RangeV3
